import Mathlib

/-!
Verification of the INP (Independence Number Project) classifier, `inp.py`.

The file shallowly embeds the parts of `INPGraph` that the checked
properties talk about: the graph data (vertex list and edge list, as in the
Sage `Graph` base class), the bound/property registries and their
aggregation loops (`best_lower_bound`, `best_upper_bound`,
`has_alpha_property`, `is_difficult`), the closed-form bounds `kwok`,
`borg`, `annihilation_number`, `residue`, `matching_lower_bound`, the
relaxation adapters `fractional_alpha` and `lovasz_theta` (with the
external LP/SDP solver given as an oracle parameter), and the critical
independent set engine `union_MCIS` with its helpers
(`bipartite_double_cover`, `closed_neighborhood`, `delete_vertices`,
`matching_number`).

Python exceptions are modelled with `Except PyErr`; a `try ... except
ValueError: pass` block catches exactly `PyErr.valueError` and lets every
other error propagate, as in Python.
-/

/-- Python exceptions that the embedded code can raise: `ValueError`
(raised explicitly by `kwok`/`borg` and by `max` on an empty list),
`AttributeError` (raised by an attribute lookup that fails),
`IndexError` (raised by indexing past the end of a list), and a generic
failure signal of the external LP/SDP solvers (which is none of the
former). -/
inductive PyErr where
  | valueError
  | attributeError
  | indexError
  | solverFailure
  deriving DecidableEq, Repr

/-- A finite graph as held by the Sage `Graph` base class: a list of
vertex labels and a list of edges, each edge an ordered pair standing for
an unordered pair.  Simple graphs list every edge once and have no loops;
this is recorded separately by `FinGraph.WF`. -/
structure FinGraph (V : Type) where
  verts : List V
  edges : List (V × V)

namespace FinGraph

variable {V : Type} [DecidableEq V]

/-- Sage `order()`: the number of vertices. -/
def order (g : FinGraph V) : ℕ := g.verts.length

/-- Sage `size()`: the number of edges. -/
def size (g : FinGraph V) : ℕ := g.edges.length

/-- Sage `neighbors(v)`: the other endpoint of every edge incident to
`v`. -/
def neighbors (g : FinGraph V) (v : V) : List V :=
  g.edges.filterMap fun e =>
    if e.1 = v then some e.2 else if e.2 = v then some e.1 else none

/-- Sage `degree(v)`: the number of neighbors of `v`. -/
def degree (g : FinGraph V) (v : V) : ℕ := (g.neighbors v).length

/-- Sage `degree()`: the list of vertex degrees, in vertex order. -/
def degrees (g : FinGraph V) : List ℕ := g.verts.map g.degree

/-- Well-formedness of the edge-list representation of a simple graph:
vertex labels are distinct, both endpoints of every edge are vertices, no
edge is a loop, and no unordered pair appears twice in the edge list. -/
def WF (g : FinGraph V) : Prop :=
  g.verts.Nodup ∧
    (∀ e ∈ g.edges, e.1 ∈ g.verts ∧ e.2 ∈ g.verts ∧ e.1 ≠ e.2) ∧
    (g.edges.map fun e => s(e.1, e.2)).Nodup

end FinGraph

/-- Sorted-descending copy of an integer list, as produced by Sage
`degree_sequence()` and by the `seq.sort(reverse=True)` calls in
`residue`. -/
def sortDesc (l : List ℤ) : List ℤ := l.insertionSort (· ≥ ·)

/-- Sorted-ascending copy of a list of naturals, as produced by Python
`sorted(...)` in `annihilation_number`. -/
def sortAsc (l : List ℕ) : List ℕ := l.insertionSort (· ≤ ·)

namespace INPGraph

variable {V : Type} [DecidableEq V]

/-- Python `max(xs)` on a list of naturals: `ValueError` on the empty
list, otherwise the greatest element. -/
def pymax : List ℕ → Except PyErr ℕ
  | [] => .error .valueError
  | x :: xs => .ok (xs.foldl max x)

/-- Source `max_degree` (line 271): `max(self.degree())`. -/
def max_degree (g : FinGraph V) : Except PyErr ℕ := pymax g.degrees

/-- Source `degree_sequence` (Sage built-in used at line 391): the degree
list sorted in non-increasing order, as Python integers. -/
def degree_sequence (g : FinGraph V) : List ℤ :=
  sortDesc (g.degrees.map fun d : ℕ => (d : ℤ))

/-- The class-level registry settings of `INPGraph` (lines 44 to 46):
`__lower_bounds`, `__upper_bounds` and `__alpha_properties`.  Each list
holds graph functions; a bound computation may raise, which `Except
PyErr` records. -/
structure Registries (V : Type) where
  lower_bounds : List (FinGraph V → Except PyErr ℚ)
  upper_bounds : List (FinGraph V → Except PyErr ℚ)
  alpha_properties : List (FinGraph V → Except PyErr Bool)

/-- The registries exactly as the source initialises them (lines 44 to
46): all three lists are empty. -/
def initialRegistries : Registries V := ⟨[], [], []⟩

/-- The expression `self.func()` that each registry loop body evaluates
(lines 100, 124 and 145).  In Python this is an attribute lookup of the
literal name `func` on the `INPGraph` instance, not a call of the
iterated loop variable; neither `INPGraph` nor the Sage `Graph` base
class defines an attribute called `func`, so the lookup raises
`AttributeError` whatever the graph is. -/
def self_func_call (α : Type) : Except PyErr α := .error .attributeError

/-- The `for func in self.__lower_bounds` loop of `best_lower_bound`
(lines 98 to 104): each iteration evaluates `self.func()` inside `try
... except ValueError: pass` and adopts the result when it is strictly
greater than the current best. -/
def lower_loop : List (FinGraph V → Except PyErr ℚ) → FinGraph V → ℚ →
    Except PyErr ℚ
  | [], _, lbound => .ok lbound
  | _func :: rest, g, lbound =>
    match self_func_call ℚ with
    | .ok new_bound =>
        lower_loop rest g (if new_bound > lbound then new_bound else lbound)
    | .error e =>
        if e = .valueError then lower_loop rest g lbound else .error e

/-- Source `best_lower_bound` (lines 84 to 106): default 1, then the
registry loop. -/
def best_lower_bound (R : Registries V) (g : FinGraph V) : Except PyErr ℚ :=
  lower_loop R.lower_bounds g 1

/-- The `for func in self.__upper_bounds` loop of `best_upper_bound`
(lines 122 to 128), adopting strictly smaller results. -/
def upper_loop : List (FinGraph V → Except PyErr ℚ) → FinGraph V → ℚ →
    Except PyErr ℚ
  | [], _, ubound => .ok ubound
  | _func :: rest, g, ubound =>
    match self_func_call ℚ with
    | .ok new_bound =>
        upper_loop rest g (if new_bound < ubound then new_bound else ubound)
    | .error e =>
        if e = .valueError then upper_loop rest g ubound else .error e

/-- Source `best_upper_bound` (lines 108 to 130): default `order()`,
then the registry loop. -/
def best_upper_bound (R : Registries V) (g : FinGraph V) : Except PyErr ℚ :=
  upper_loop R.upper_bounds g (g.order : ℚ)

/-- The `for func in self.__alpha_properties` loop of
`has_alpha_property` (lines 143 to 148): return `True` on the first true
result, skip `ValueError`, fall through to `False`. -/
def alpha_loop : List (FinGraph V → Except PyErr Bool) → FinGraph V →
    Except PyErr Bool
  | [], _ => .ok false
  | _func :: rest, g =>
    match self_func_call Bool with
    | .ok b => if b then .ok true else alpha_loop rest g
    | .error e =>
        if e = .valueError then alpha_loop rest g else .error e

/-- Source `has_alpha_property` (lines 132 to 150). -/
def has_alpha_property (R : Registries V) (g : FinGraph V) :
    Except PyErr Bool :=
  alpha_loop R.alpha_properties g

/-- Source `is_difficult` (lines 61 to 82): `False` if an alpha property
holds, otherwise compare `ceil(best_lower_bound())` with
`floor(best_upper_bound())` and answer `False` exactly when they are
equal. -/
def is_difficult (R : Registries V) (g : FinGraph V) : Except PyErr Bool := do
  let p ← has_alpha_property R g
  if p then
    return false
  else
    let lb ← best_lower_bound R g
    let ub ← best_upper_bound R g
    if (⌈lb⌉ : ℤ) = ⌊ub⌋ then
      return false
    else
      return true

/-- A list of edges is a matching when no two of them share an
endpoint. -/
def isMatching (M : List (V × V)) : Prop :=
  M.Pairwise fun e f => e.1 ≠ f.1 ∧ e.1 ≠ f.2 ∧ e.2 ≠ f.1 ∧ e.2 ≠ f.2

instance (M : List (V × V)) : Decidable (isMatching M) := by
  unfold isMatching; infer_instance

/-- Modelled from the spec: the `maximum-matching-value` primitive of the
Graph Primitive Provider (Sage `matching(value_only=True)`, called at
line 179), which the spec lists as an external interface.  It is the
greatest number of pairwise vertex-disjoint edges that can be chosen
from the edge list. -/
def matching_number (g : FinGraph V) : ℕ :=
  ((g.edges.sublists.filter fun M => decide (isMatching M)).map
    List.length).foldr max 0

/-- Source `bipartite_double_cover` (lines 203 to 245): the tensor
product of the graph with the complete graph on `{0, 1}`.  The vertices
are the pairs `(v, 0)` and `(v, 1)`, and every edge `(u, v)` of the
graph contributes the two edges `(u,0)-(v,1)` and `(u,1)-(v,0)`. -/
def bipartite_double_cover (g : FinGraph V) : FinGraph (V × ℕ) :=
  { verts := g.verts.map (·, 0) ++ g.verts.map (·, 1)
    edges := (g.edges.map fun e => ((e.1, 0), (e.2, 1))) ++
      (g.edges.map fun e => ((e.1, 1), (e.2, 0))) }

/-- Source `closed_neighborhood` (lines 251 to 259), list branch: the
vertices together with all their neighbors, without repetitions (the
Python code builds `list(set(...))`; only membership in the result is
ever used). -/
def closed_neighborhood (g : FinGraph V) (verts : List V) : List V :=
  (verts.flatMap fun v => v :: g.neighbors v).dedup

/-- Sage `delete_vertices` of the Graph Primitive Provider (used at line
304 on a disposable copy): drop the listed vertices and every edge
touching them. -/
def delete_vertices (g : FinGraph V) (S : List V) : FinGraph V :=
  { verts := g.verts.filter fun v => decide (v ∉ S)
    edges := g.edges.filter fun e => decide (e.1 ∉ S ∧ e.2 ∉ S) }

/-- Source `union_MCIS` (lines 279 to 309): on the bipartite double
cover `b`, `alpha = b.order() - b.matching_number()`; a vertex `v`
belongs to the union of maximum critical independent sets when deleting
the closed neighborhood of `{(v,0), (v,1)}` from a copy of `b` leaves a
graph whose deficiency-based independence number plus 2 equals
`alpha`. -/
def union_MCIS (g : FinGraph V) : List V :=
  let b := bipartite_double_cover g
  let alpha : ℤ := (b.order : ℤ) - matching_number b
  g.verts.filter fun v =>
    let test := delete_vertices b (closed_neighborhood b [(v, 0), (v, 1)])
    decide ((test.order : ℤ) - matching_number test + 2 = alpha)

/-- Source `matching_lower_bound` (lines 372 to 387):
`order() - 2 * matching_number()`, a lower bound registry candidate. -/
def matching_lower_bound (g : FinGraph V) : Except PyErr ℚ :=
  .ok ((g.order : ℚ) - 2 * matching_number g)

/-- Source `has_pendant_vertex` (lines 325 to 327): `1 in self.degree()`,
an alpha property registry candidate. -/
def has_pendant_vertex (g : FinGraph V) : Except PyErr Bool :=
  .ok (decide (1 ∈ g.degrees))

/-- Source `kwok` (lines 560 to 589): raise `ValueError` when the
maximum degree is 0, otherwise return `n - e / Delta`. -/
def kwok (g : FinGraph V) : Except PyErr ℚ := do
  let Delta ← max_degree g
  if Delta = 0 then
    .error .valueError
  else
    .ok ((g.order : ℚ) - (g.size : ℚ) / (Delta : ℚ))

/-- Source `borg` (lines 695 to 716): raise `ValueError` when the
maximum degree is 0, otherwise return `n - ceil((n - 1) / Delta)`. -/
def borg (g : FinGraph V) : Except PyErr ℚ := do
  let Delta ← max_degree g
  if Delta = 0 then
    .error .valueError
  else
    .ok ((g.order : ℚ) - (⌈((g.order : ℚ) - 1) / (Delta : ℚ)⌉ : ℚ))

/-- The `while` loop of `annihilation_number` (line 689), with an
explicit iteration budget: starting from the given counter `a`, advance
while `a <= n` and the sum of the first `a` entries of `seq` is at most
the sum of the remaining entries.  Each pass increases `a` by one and the
guard fails once `a` exceeds `n`, so a budget of `n + 1` covers every
run of the Python loop. -/
def ann_loop (seq : List ℕ) (n : ℕ) : ℕ → ℕ → ℕ
  | 0, a => a
  | fuel + 1, a =>
    if a ≤ n ∧ (seq.take a).sum ≤ (seq.drop a).sum then
      ann_loop seq n fuel (a + 1)
    else
      a

/-- Source `annihilation_number` (lines 663 to 693): sort the degrees in
increasing order, start `a` at 1, and advance while `a <= n` and
`sum(seq[:a]) <= sum(seq[a:])`. -/
def annihilation_number (g : FinGraph V) : ℕ :=
  ann_loop (sortAsc g.degrees) g.order (g.order + 1) 1

/-- Decrement the first `d` entries of a list, leaving the rest: the
Python statement `seq[:d] = [k-1 for k in seq[:d]]` after the head was
popped. -/
def decFirst (d : ℕ) (l : List ℤ) : List ℤ :=
  (l.take d).map (· - 1) ++ l.drop d

/-- The `while seq[0] > 0` loop of `residue` (lines 393 to 396), with an
explicit iteration budget: pop the head `d`, decrement the next `d`
entries, re-sort in decreasing order, repeat.  Reading `seq[0]` on an
empty list raises `IndexError`.  Every pass shortens the list by exactly
one, so a budget equal to the initial length covers every run of the
Python loop (the zero-budget fallback is unreachable from the initial
call, because the budget always stays at least the length). -/
def residue_loop : ℕ → List ℤ → Except PyErr (List ℤ)
  | _, [] => .error .indexError
  | fuel + 1, d :: rest =>
    if 0 < d then residue_loop fuel (sortDesc (decFirst d.toNat rest))
    else .ok (d :: rest)
  | 0, d :: rest => .ok (d :: rest)

/-- Source `residue` (lines 389 to 398): run the reduction loop on the
decreasing degree sequence and return the length of what remains. -/
def residue (g : FinGraph V) : Except PyErr ℕ :=
  (residue_loop (degree_sequence g).length (degree_sequence g)).map
    List.length

/-- The linear program that `fractional_alpha` builds (lines 489 to
497): a maximization problem with one variable per vertex, the
objective summing all of them, a constraint `x[v] <= 1` per vertex and a
constraint `x[u] + x[v] <= 1` per edge. -/
structure LPData (V : Type) where
  maximization : Bool
  objective_vars : List V
  var_max_one : List V
  edge_max_one : List (V × V)

/-- The LP instance built from a graph by `fractional_alpha`. -/
def build_lp (g : FinGraph V) : LPData V :=
  ⟨true, g.verts, g.verts, g.edges⟩

/-- Source `fractional_alpha` (lines 469 to 500): build the LP and
return `p.solve()`.  The solver is the external Linear-Program Solver of
the spec, passed here as an oracle; the source wraps the call in no
exception handler, so whatever the solver produces, value or error, is
the result of `fractional_alpha`. -/
def fractional_alpha (solve : LPData V → Except PyErr ℚ)
    (g : FinGraph V) : Except PyErr ℚ :=
  solve (build_lp g)

/-- Sage `complement()` of the Graph Primitive Provider (used at line
538): same vertices, an edge for every unordered pair of distinct
vertices that is not an edge of the graph. -/
def adjacent (g : FinGraph V) (u v : V) : Prop :=
  (u, v) ∈ g.edges ∨ (v, u) ∈ g.edges

instance (g : FinGraph V) (u v : V) : Decidable (adjacent g u v) := by
  unfold adjacent; infer_instance

/-- All unordered pairs of distinct entries of a list, each once. -/
def allPairs : List V → List (V × V)
  | [] => []
  | v :: rest => rest.map (v, ·) ++ allPairs rest

/-- The complement graph. -/
def complement (g : FinGraph V) : FinGraph V :=
  { verts := g.verts
    edges := (allPairs g.verts).filter fun e => decide (¬ adjacent g e.1 e.2) }

/-- The data determining the semidefinite program that `lovasz_theta`
hands to `cvxopt.solvers.sdp` (lines 545 to 554): the order and size of
the complement graph and its edge list, from which the sparse constraint
matrices are filled in. -/
structure SDPData (V : Type) where
  nverts : ℕ
  nedges : ℕ
  edge_list : List (V × V)

/-- The vector `-c` of line 546 negated at line 555: `n - 1` zeros
followed by one `2` per complement edge (`d - n = m`). -/
def theta_neg_c (n m : ℕ) : List ℚ :=
  List.replicate (n - 1) 0 ++ List.replicate m 2

/-- Python `round(q, 3)` on the recovered objective value (line 557). -/
def round3 (q : ℚ) : ℚ := (round (q * 1000) : ℚ) / 1000

/-- Source `lovasz_theta` (lines 502 to 558): take the complement, and
when it has exactly one vertex return `1.0` without touching the solver;
otherwise submit the SDP to the external Semidefinite-Program Solver
(here an oracle returning the solution vector `sol['x']`) and return
`round(1.0 + (-c) . x, 3)`.  As in `fractional_alpha` there is no
exception handler around the solver call. -/
def lovasz_theta (sdp : SDPData V → Except PyErr (List ℚ))
    (g : FinGraph V) : Except PyErr ℚ :=
  let gc := complement g
  if gc.order = 1 then
    .ok 1
  else do
    let x ← sdp ⟨gc.order, gc.size, gc.edges⟩
    .ok (round3 (1 + ((theta_neg_c gc.order gc.size).zipWith (· * ·) x).sum))

end INPGraph

section ConcreteGraphs

/-- The graph with no vertices. -/
def K0 : FinGraph ℕ := ⟨[], []⟩

/-- The edgeless graph on two vertices. -/
def E2 : FinGraph ℕ := ⟨[0, 1], []⟩

/-- The complete graph on three vertices. -/
def K3 : FinGraph ℕ := ⟨[0, 1, 2], [(0, 1), (0, 2), (1, 2)]⟩

/-- The 4-cycle. -/
def C4 : FinGraph ℕ := ⟨[0, 1, 2, 3], [(0, 1), (1, 2), (2, 3), (0, 3)]⟩

/-- The complement of the 4-cycle: two disjoint edges. -/
def C4c : FinGraph ℕ := ⟨[0, 1, 2, 3], [(0, 2), (1, 3)]⟩

/-- The graph `Cx` of the `union_MCIS` docstring (line 287): a triangle
with a pendant vertex attached. -/
def CxGraph : FinGraph ℕ := ⟨[0, 1, 2, 3], [(0, 1), (0, 2), (1, 2), (2, 3)]⟩

/-- The star on four vertices, `graphs.StarGraph(3)` of the
`annihilation_number` docstring. -/
def S3 : FinGraph ℕ := ⟨[0, 1, 2, 3], [(0, 1), (0, 2), (0, 3)]⟩

end ConcreteGraphs


section HelperLemmas

/-- Bind of a successful `Except` computation. -/
theorem ok_bind {ε α β : Type} (a : α) (f : α → Except ε β) :
    (Except.ok a >>= f : Except ε β) = f a := rfl

/-- Bind of a failed `Except` computation. -/
theorem error_bind {ε α β : Type} (e : ε) (f : α → Except ε β) :
    (Except.error e >>= f : Except ε β) = Except.error e := rfl

/-- The `pure` of the `Except` monad is `Except.ok`. -/
theorem pure_def {ε α : Type} (a : α) : (pure a : Except ε α) = Except.ok a :=
  rfl

variable {V : Type}

/-- With an empty lower-bound registry the loop returns the default. -/
theorem lower_loop_nil (g : FinGraph V) (x : ℚ) :
    INPGraph.lower_loop [] g x = .ok x := rfl

/-- A non-empty lower-bound registry makes the first loop iteration
evaluate `self.func()`, raising `AttributeError`, which the
`except ValueError` handler does not catch. -/
theorem lower_loop_cons (f : FinGraph V → Except PyErr ℚ)
    (rest : List (FinGraph V → Except PyErr ℚ)) (g : FinGraph V) (x : ℚ) :
    INPGraph.lower_loop (f :: rest) g x = .error .attributeError := rfl

/-- With an empty upper-bound registry the loop returns the default. -/
theorem upper_loop_nil (g : FinGraph V) (x : ℚ) :
    INPGraph.upper_loop [] g x = .ok x := rfl

/-- A non-empty upper-bound registry raises on the first iteration. -/
theorem upper_loop_cons (f : FinGraph V → Except PyErr ℚ)
    (rest : List (FinGraph V → Except PyErr ℚ)) (g : FinGraph V) (x : ℚ) :
    INPGraph.upper_loop (f :: rest) g x = .error .attributeError := rfl

/-- With an empty alpha-property registry the loop returns `False`. -/
theorem alpha_loop_nil (g : FinGraph V) :
    INPGraph.alpha_loop [] g = .ok false := rfl

/-- A non-empty alpha-property registry raises on the first iteration. -/
theorem alpha_loop_cons (f : FinGraph V → Except PyErr Bool)
    (rest : List (FinGraph V → Except PyErr Bool)) (g : FinGraph V) :
    INPGraph.alpha_loop (f :: rest) g = .error .attributeError := rfl

end HelperLemmas

section ClaimC3

/-- C3: for every graph, whenever one of the three class-level registry
lists is non-empty, the corresponding aggregator raises an uncaught
`AttributeError` on its first loop iteration, because the loop body
evaluates `self.func()` — an attribute lookup of the literal name
`func`, which no graph has — instead of calling the iterated function,
and the surrounding handler catches only `ValueError`. -/
theorem C3_nonempty_registry_attribute_error {V : Type} [DecidableEq V]
    (R : INPGraph.Registries V) (g : FinGraph V) :
    (R.lower_bounds ≠ [] →
      INPGraph.best_lower_bound R g = .error .attributeError) ∧
    (R.upper_bounds ≠ [] →
      INPGraph.best_upper_bound R g = .error .attributeError) ∧
    (R.alpha_properties ≠ [] →
      INPGraph.has_alpha_property R g = .error .attributeError) := by
  refine ⟨fun hL => ?_, fun hU => ?_, fun hA => ?_⟩
  · obtain ⟨f, rest, hfr⟩ := List.exists_cons_of_ne_nil hL
    unfold INPGraph.best_lower_bound
    rw [hfr, lower_loop_cons]
  · obtain ⟨f, rest, hfr⟩ := List.exists_cons_of_ne_nil hU
    unfold INPGraph.best_upper_bound
    rw [hfr, upper_loop_cons]
  · obtain ⟨f, rest, hfr⟩ := List.exists_cons_of_ne_nil hA
    unfold INPGraph.has_alpha_property
    rw [hfr, alpha_loop_cons]

/-- Witness for C3 at a concrete input: registries holding the tagged
functions `matching_lower_bound`, `kwok` and `has_pendant_vertex`, on
the complete graph on three vertices. -/
theorem C3_nonempty_registry_attribute_error_witness :
    INPGraph.best_lower_bound
      ⟨[INPGraph.matching_lower_bound], [], []⟩ K3 = .error .attributeError ∧
    INPGraph.best_upper_bound
      ⟨[], [INPGraph.kwok], []⟩ K3 = .error .attributeError ∧
    INPGraph.has_alpha_property
      ⟨[], [], [INPGraph.has_pendant_vertex]⟩ K3 = .error .attributeError :=
  ⟨(C3_nonempty_registry_attribute_error _ K3).1 (by simp),
   (C3_nonempty_registry_attribute_error _ K3).2.1 (by simp),
   (C3_nonempty_registry_attribute_error _ K3).2.2 (by simp)⟩

end ClaimC3

section ClaimC2

/-- C2 (the registry aggregation the claim describes never happens): as
soon as a lower-bound function is registered, `best_lower_bound` does
not evaluate it and adopt its value — it raises `AttributeError` from
`self.func()` on the first iteration.  Here `matching_lower_bound` is
registered; called on the complete graph on three vertices it would
return 1 (its own docstring example), yet the aggregator returns the
uncaught error instead of a bound. -/
theorem C2_registered_function_never_evaluated :
    INPGraph.best_lower_bound ⟨[INPGraph.matching_lower_bound], [], []⟩ K3 =
      .error .attributeError ∧
    INPGraph.matching_lower_bound K3 = .ok 1 ∧
    INPGraph.best_upper_bound ⟨[], [INPGraph.kwok], []⟩ K3 =
      .error .attributeError := by
  refine ⟨rfl, ?_, rfl⟩
  have h : INPGraph.matching_number K3 = 1 := rfl
  unfold INPGraph.matching_lower_bound
  rw [h]
  norm_num [K3, FinGraph.order]

end ClaimC2

section ClaimC4

/-- C4: with the registries as the source defines them (all three lists
empty), every graph gets `best_lower_bound = 1`,
`best_upper_bound = order`, `has_alpha_property = False`, and
`is_difficult` is `True` exactly when the order is not 1. -/
theorem C4_initial_registries_trivial_classification {V : Type}
    [DecidableEq V] (g : FinGraph V) :
    INPGraph.best_lower_bound INPGraph.initialRegistries g = .ok 1 ∧
    INPGraph.best_upper_bound INPGraph.initialRegistries g =
      .ok (g.order : ℚ) ∧
    INPGraph.has_alpha_property INPGraph.initialRegistries g = .ok false ∧
    (INPGraph.is_difficult INPGraph.initialRegistries g = .ok true ↔
      g.order ≠ 1) := by
  refine ⟨rfl, rfl, rfl, ?_⟩
  have h : INPGraph.is_difficult (INPGraph.initialRegistries (V := V)) g =
      if (⌈(1 : ℚ)⌉ : ℤ) = ⌊((g.order : ℚ))⌋ then .ok false else .ok true :=
    rfl
  rw [h, Int.ceil_one, Int.floor_natCast]
  rcases eq_or_ne g.order 1 with h1 | h1
  · rw [h1]
    simp
  · rw [if_neg fun hc => h1 (by exact_mod_cast hc.symm)]
    simp [h1]

end ClaimC4

section ClaimC1

/-- C1 counterexample: on the graph with no vertices (with the registries
as the source defines them), no alpha property holds, the rounded lower
bound is `ceil(1) = 1` and the rounded upper bound is `floor(0) = 0`, so
`lbound < ubound` is false — yet `is_difficult` returns `True`, because
the code tests `lbound == ubound`, not `lbound < ubound`. -/
theorem C1_strict_less_counterexample :
    INPGraph.is_difficult INPGraph.initialRegistries K0 = .ok true ∧
    INPGraph.has_alpha_property INPGraph.initialRegistries K0 = .ok false ∧
    INPGraph.best_lower_bound INPGraph.initialRegistries K0 = .ok 1 ∧
    INPGraph.best_upper_bound INPGraph.initialRegistries K0 = .ok 0 ∧
    ¬ ((⌈(1 : ℚ)⌉ : ℤ) < ⌊(0 : ℚ)⌋) := by
  refine ⟨rfl, rfl, rfl, rfl, ?_⟩
  rw [Int.ceil_one, Int.floor_zero]
  decide

/-- C1 as amended: `is_difficult` returns `False` when an alpha property
holds; otherwise it compares `ceil(best_lower_bound)` with
`floor(best_upper_bound)` and returns `True` exactly when the two
rounded bounds are different (not: when the lower is strictly below the
upper). -/
theorem C1_amended_difficult_iff {V : Type} [DecidableEq V]
    (R : INPGraph.Registries V) (g : FinGraph V) :
    (INPGraph.has_alpha_property R g = .ok true →
      INPGraph.is_difficult R g = .ok false) ∧
    (∀ lb ub : ℚ, INPGraph.has_alpha_property R g = .ok false →
      INPGraph.best_lower_bound R g = .ok lb →
      INPGraph.best_upper_bound R g = .ok ub →
      (INPGraph.is_difficult R g = .ok true ↔ (⌈lb⌉ : ℤ) ≠ ⌊ub⌋)) := by
  constructor
  · intro hp
    unfold INPGraph.is_difficult
    rw [hp, ok_bind]
    rfl
  · intro lb ub hp hlb hub
    unfold INPGraph.is_difficult
    rw [hp, ok_bind]
    show (INPGraph.best_lower_bound R g >>= _) = _ ↔ _
    rw [hlb, ok_bind]
    show (INPGraph.best_upper_bound R g >>= _) = _ ↔ _
    rw [hub, ok_bind]
    rcases eq_or_ne (⌈lb⌉ : ℤ) ⌊ub⌋ with he | he
    · rw [if_pos he]
      simp [he, pure_def]
    · rw [if_neg he]
      simp [he, pure_def]

/-- Witness for C1 on the complete graph on three vertices with the
initial registries: no alpha property holds, the bounds are 1 and 3, and
the verdict is `True` because the rounded bounds differ. -/
theorem C1_amended_difficult_iff_witness :
    INPGraph.is_difficult INPGraph.initialRegistries K3 = .ok true :=
  ((C1_amended_difficult_iff INPGraph.initialRegistries K3).2
    1 ((3 : ℕ) : ℚ) rfl rfl rfl).mpr (by
      rw [Int.ceil_one, Int.floor_natCast]
      decide)

end ClaimC1

section ClaimC7

/-- C7 counterexample: on the order-0 graph the report is not consistent
with independence number 0 — the lower bound stays at the hard-coded
default 1 while the upper bound is the order 0, so the two differ and
the lower bound exceeds the upper. -/
theorem C7_order_zero_counterexample :
    INPGraph.best_lower_bound INPGraph.initialRegistries K0 = .ok 1 ∧
    INPGraph.best_upper_bound INPGraph.initialRegistries K0 = .ok 0 ∧
    (1 : ℚ) ≠ 0 ∧ ¬ ((1 : ℚ) ≤ 0) := by
  refine ⟨rfl, rfl, by norm_num, by norm_num⟩

/-- C7 as amended: a graph of order 0 yields `best_lower_bound = 1` (the
hard-coded default) and `best_upper_bound = 0` (the order); with the
empty registries no registered function — in particular neither
relaxation adapter — is invoked, and the verdict is `True` since the
rounded bounds 1 and 0 differ. -/
theorem C7_order_zero_report {V : Type} [DecidableEq V] (g : FinGraph V)
    (h : g.order = 0) :
    INPGraph.best_lower_bound INPGraph.initialRegistries g = .ok 1 ∧
    INPGraph.best_upper_bound INPGraph.initialRegistries g = .ok 0 ∧
    INPGraph.is_difficult INPGraph.initialRegistries g = .ok true := by
  refine ⟨rfl, ?_, ?_⟩
  · show Except.ok ((g.order : ℚ)) = _
    rw [h]
    norm_num
  · rcases (C4_initial_registries_trivial_classification g).2.2.2 with ⟨_, h2⟩
    exact h2 (by omega)

/-- Witness for C7 at the graph with no vertices. -/
theorem C7_order_zero_report_witness :
    INPGraph.best_lower_bound INPGraph.initialRegistries K0 = .ok 1 ∧
    INPGraph.best_upper_bound INPGraph.initialRegistries K0 = .ok 0 ∧
    INPGraph.is_difficult INPGraph.initialRegistries K0 = .ok true :=
  C7_order_zero_report K0 rfl

end ClaimC7

section ClaimC5

/-- C5: for every graph whose maximum degree is 0, `kwok` and `borg`
raise `ValueError` (a domain error, which the aggregation loop policy
skips) instead of returning a value; for every graph with maximum degree
`Delta > 0`, `kwok` returns `n - e / Delta` and `borg` returns
`n - ceil((n - 1) / Delta)`. -/
theorem C5_kwok_borg_domain {V : Type} [DecidableEq V] (g : FinGraph V) :
    (INPGraph.max_degree g = .ok 0 →
      INPGraph.kwok g = .error .valueError ∧
      INPGraph.borg g = .error .valueError) ∧
    (∀ Delta : ℕ, INPGraph.max_degree g = .ok Delta → 0 < Delta →
      INPGraph.kwok g = .ok ((g.order : ℚ) - (g.size : ℚ) / (Delta : ℚ)) ∧
      INPGraph.borg g =
        .ok ((g.order : ℚ) - (⌈((g.order : ℚ) - 1) / (Delta : ℚ)⌉ : ℚ))) := by
  constructor
  · intro h0
    constructor
    · unfold INPGraph.kwok
      rw [h0, ok_bind, if_pos rfl]
    · unfold INPGraph.borg
      rw [h0, ok_bind, if_pos rfl]
  · intro Delta hD hpos
    have hne : ¬ Delta = 0 := Nat.pos_iff_ne_zero.mp hpos
    constructor
    · unfold INPGraph.kwok
      rw [hD, ok_bind, if_neg hne]
    · unfold INPGraph.borg
      rw [hD, ok_bind, if_neg hne]

/-- Witness for C5: on the edgeless graph on two vertices (maximum
degree 0) both bounds raise `ValueError`; on the complete graph on three
vertices (maximum degree 2) they return the docstring values 3/2
and 2. -/
theorem C5_kwok_borg_domain_witness :
    (INPGraph.kwok E2 = .error .valueError ∧
     INPGraph.borg E2 = .error .valueError) ∧
    INPGraph.kwok K3 = .ok (3 / 2 : ℚ) ∧
    INPGraph.borg K3 = .ok (2 : ℚ) := by
  refine ⟨(C5_kwok_borg_domain E2).1 rfl, ?_, ?_⟩
  · have h := ((C5_kwok_borg_domain K3).2 2 rfl (by norm_num)).1
    have hor : K3.order = 3 := rfl
    have hsz : K3.size = 3 := rfl
    rw [h, hor, hsz]
    norm_num
  · have h := ((C5_kwok_borg_domain K3).2 2 rfl (by norm_num)).2
    have hor : K3.order = 3 := rfl
    rw [h, hor]
    rw [show (((3 : ℕ) : ℚ) - 1) / ((2 : ℕ) : ℚ) = 1 by norm_num,
      Int.ceil_one]
    norm_num

end ClaimC5

section ClaimC8

/-- C8 counterexample: a solver failure is not reported as a skippable
result — `fractional_alpha` and `lovasz_theta` hand the error straight
to their caller (neither has an exception handler), and with a non-empty
registry the classification itself aborts with an uncaught
`AttributeError` instead of surviving a failing entry. -/
theorem C8_solver_failure_counterexample :
    INPGraph.fractional_alpha (fun _ => .error .solverFailure) K3 =
      .error .solverFailure ∧
    INPGraph.lovasz_theta (fun _ => .error .solverFailure) K3 =
      .error .solverFailure ∧
    INPGraph.is_difficult ⟨[], [], [INPGraph.has_pendant_vertex]⟩ K3 =
      .error .attributeError :=
  ⟨rfl, rfl, rfl⟩

/-- C8 as amended: there is no handler in either relaxation adapter — a
failure of the external LP solver propagates out of `fractional_alpha`
unchanged, a failure of the external SDP solver propagates out of
`lovasz_theta` unchanged whenever the solver is reached (complement
order different from 1), and the aggregation loops catch only
`ValueError`, so with any non-empty alpha-property registry the overall
classification aborts with `AttributeError`. -/
theorem C8_amended_solver_failure_propagates {V : Type} [DecidableEq V]
    (g : FinGraph V) (e : PyErr) :
    INPGraph.fractional_alpha (fun _ => .error e) g = .error e ∧
    ((INPGraph.complement g).order ≠ 1 →
      INPGraph.lovasz_theta (fun _ => .error e) g = .error e) ∧
    (∀ R : INPGraph.Registries V, R.alpha_properties ≠ [] →
      INPGraph.is_difficult R g = .error .attributeError) := by
  refine ⟨rfl, fun h1 => ?_, fun R hA => ?_⟩
  · unfold INPGraph.lovasz_theta
    rw [if_neg h1]
    rfl
  · obtain ⟨f, rest, hfr⟩ := List.exists_cons_of_ne_nil hA
    unfold INPGraph.is_difficult
    show (INPGraph.has_alpha_property R g >>= _) = _
    unfold INPGraph.has_alpha_property
    rw [hfr, alpha_loop_cons, error_bind]

/-- Witness for C8 on the 4-cycle: the SDP failure propagates (the
complement has 4 vertices) and a singleton alpha-property registry
aborts the classification. -/
theorem C8_amended_solver_failure_propagates_witness :
    INPGraph.lovasz_theta (fun _ => .error .solverFailure) C4 =
      .error .solverFailure ∧
    INPGraph.is_difficult ⟨[], [], [INPGraph.has_pendant_vertex]⟩ C4 =
      .error .attributeError :=
  ⟨(C8_amended_solver_failure_propagates C4 .solverFailure).2.1 (by decide),
   (C8_amended_solver_failure_propagates C4 .solverFailure).2.2 _ (by simp)⟩

end ClaimC8

section ClaimC9

set_option maxRecDepth 8000 in
/-- C9 counterexample: on the complement of the 4-cycle (two disjoint
edges), `union_MCIS` returns all four vertices, not a 3-vertex set. -/
theorem C9_complement_counterexample :
    INPGraph.union_MCIS C4c = [0, 1, 2, 3] ∧
    (INPGraph.union_MCIS C4c).length ≠ 3 := by
  have h : INPGraph.union_MCIS C4c = [0, 1, 2, 3] := by rfl
  exact ⟨h, by rw [h]; decide⟩

set_option maxRecDepth 8000 in
/-- C9 as amended: `union_MCIS` accepts any finite graph and returns the
empty list on the order-0 graph; on the 4-cycle it returns all four
vertices; on the complement of the 4-cycle it also returns all four
vertices; the 3-vertex answer `[0, 1, 3]` of the docstring belongs to
the graph `Cx`, a triangle with a pendant vertex. -/
theorem C9_union_MCIS_values :
    INPGraph.union_MCIS K0 = [] ∧
    INPGraph.union_MCIS C4 = [0, 1, 2, 3] ∧
    INPGraph.union_MCIS C4c = [0, 1, 2, 3] ∧
    INPGraph.union_MCIS CxGraph = [0, 1, 3] := by
  refine ⟨rfl, by rfl, by rfl, by rfl⟩

end ClaimC9

section ClaimC6

/-- The loop guard condition of `annihilation_number` at index `a`: the
sum of the first `a` entries of the sequence is at most the sum of the
remaining entries (`sum(seq[:a]) <= sum(seq[a:])`). -/
def prefSumGood (seq : List ℕ) (a : ℕ) : Prop :=
  (seq.take a).sum ≤ (seq.drop a).sum

instance (seq : List ℕ) (a : ℕ) : Decidable (prefSumGood seq a) := by
  unfold prefSumGood; infer_instance

/-- Stated from the amended claim, for comparison with the code: the
largest index `a ≤ n` of the ascending degree sequence whose prefix sum
is at most the sum of the remaining entries. -/
def largest_good_index {V : Type} [DecidableEq V] (g : FinGraph V) : ℕ :=
  ((List.range (g.order + 1)).filter fun a =>
    decide (prefSumGood (sortAsc g.degrees) a)).foldr max 0

/-- Every member of a list of naturals is at most the fold of `max`
over the list. -/
theorem le_foldr_max {l : List ℕ} {a : ℕ} (h : a ∈ l) :
    a ≤ l.foldr max 0 := by
  induction l with
  | nil => cases h
  | cons x xs ih =>
    rcases List.mem_cons.mp h with h1 | h1
    · subst h1; exact le_max_left _ _
    · exact le_trans (ih h1) (le_max_right _ _)

/-- An upper bound on all entries bounds the fold of `max` over a list
of naturals. -/
theorem foldr_max_le {l : List ℕ} {m : ℕ} (h : ∀ x ∈ l, x ≤ m) :
    l.foldr max 0 ≤ m := by
  induction l with
  | nil => exact Nat.zero_le m
  | cons x xs ih =>
    exact max_le (h x (List.mem_cons_self x xs))
      (ih fun y hy => h y (List.mem_cons_of_mem x hy))

/-- Index 0 always satisfies the loop guard condition. -/
theorem prefSumGood_zero (seq : List ℕ) : prefSumGood seq 0 := by
  simp [prefSumGood]

/-- The loop guard condition is downward closed in the index. -/
theorem prefSumGood_mono (seq : List ℕ) {a b : ℕ} (hab : a ≤ b)
    (h : prefSumGood seq b) : prefSumGood seq a := by
  unfold prefSumGood at h ⊢
  have ht : (seq.take a).sum ≤ (seq.take b).sum := by
    have : seq.take b = seq.take a ++ (seq.drop a).take (b - a) := by
      rw [← List.take_add, Nat.add_sub_cancel' hab]
    rw [this, List.sum_append]
    exact Nat.le_add_right _ _
  have hd : (seq.drop b).sum ≤ (seq.drop a).sum := by
    have : seq.drop a = (seq.drop a).take (b - a) ++ seq.drop b := by
      have h2 : (seq.drop a).drop (b - a) = seq.drop b := by
        rw [List.drop_drop, Nat.add_sub_cancel' hab]
      rw [← h2, List.take_append_drop]
    rw [this, List.sum_append]
    exact Nat.le_add_left _ _
  omega

/-- The annihilation-number loop, run with enough budget, stops at the
first index from its start that fails the guard: the result fails the
guard, is at least the start, and every index from the start up to it
passes the guard. -/
theorem ann_loop_first_fail (seq : List ℕ) (n : ℕ) :
    ∀ fuel a : ℕ, n + 1 ≤ a + fuel →
      ¬ (INPGraph.ann_loop seq n fuel a ≤ n ∧
          prefSumGood seq (INPGraph.ann_loop seq n fuel a)) ∧
      a ≤ INPGraph.ann_loop seq n fuel a ∧
      ∀ b, a ≤ b → b < INPGraph.ann_loop seq n fuel a →
        b ≤ n ∧ prefSumGood seq b := by
  intro fuel
  induction fuel with
  | zero =>
    intro a ha
    refine ⟨fun hc => ?_, Nat.le_refl a, fun b hb1 hb2 => ?_⟩
    · exact absurd hc.1 (by unfold INPGraph.ann_loop; omega)
    · exact absurd hb2 (by unfold INPGraph.ann_loop; omega)
  | succ fuel ih =>
    intro a ha
    by_cases hP : a ≤ n ∧ (seq.take a).sum ≤ (seq.drop a).sum
    · have hstep : INPGraph.ann_loop seq n (fuel + 1) a =
          INPGraph.ann_loop seq n fuel (a + 1) := by
        show (if a ≤ n ∧ (seq.take a).sum ≤ (seq.drop a).sum then
          INPGraph.ann_loop seq n fuel (a + 1) else a) = _
        rw [if_pos hP]
      obtain ⟨h1, h2, h3⟩ := ih (a + 1) (by omega)
      rw [hstep]
      refine ⟨h1, by omega, fun b hb1 hb2 => ?_⟩
      rcases eq_or_lt_of_le hb1 with hb | hb
      · exact hb ▸ ⟨hP.1, hP.2⟩
      · exact h3 b (by omega) hb2
    · have hstep : INPGraph.ann_loop seq n (fuel + 1) a = a := by
        show (if a ≤ n ∧ (seq.take a).sum ≤ (seq.drop a).sum then
          INPGraph.ann_loop seq n fuel (a + 1) else a) = _
        rw [if_neg hP]
      rw [hstep]
      exact ⟨fun hc => hP ⟨hc.1, hc.2⟩, Nat.le_refl a,
        fun b hb1 hb2 => by omega⟩

/-- C6 counterexample: on the complete graph on three vertices the code
returns 2, yet index 1 already satisfies the condition of the claim (the
first entry 2 of the sorted degree sequence [2, 2, 2] is at most the sum
4 of the rest), so 2 is not the smallest index with that property. -/
theorem C6_smallest_index_counterexample :
    INPGraph.annihilation_number K3 = 2 ∧
    prefSumGood (sortAsc K3.degrees) 1 ∧ (1 : ℕ) ≠ 2 :=
  ⟨rfl, by decide, by decide⟩

/-- C6 as amended: `annihilation_number` returns one more than the
largest index `a ≤ n` of the sorted-ascending degree sequence such that
the sum of the first `a` entries is at most the sum of the remaining
entries (equivalently, the smallest index at which the prefix sum
strictly exceeds the rest, the loop guard also failing past `n`). -/
theorem C6_amended_annihilation_is_largest_plus_one {V : Type}
    [DecidableEq V] (g : FinGraph V) :
    INPGraph.annihilation_number g = largest_good_index g + 1 := by
  obtain ⟨hfail, hge, hall⟩ :=
    ann_loop_first_fail (sortAsc g.degrees) g.order (g.order + 1) 1
      (by omega)
  set r := INPGraph.ann_loop (sortAsc g.degrees) g.order (g.order + 1) 1
    with hr
  have hAnn : INPGraph.annihilation_number g = r := rfl
  have hub : largest_good_index g ≤ r - 1 := by
    refine foldr_max_le fun x hx => ?_
    obtain ⟨hx1, hx2⟩ := List.mem_filter.mp hx
    have hxn : x ≤ g.order := by
      have := List.mem_range.mp hx1
      omega
    have hgood : prefSumGood (sortAsc g.degrees) x :=
      of_decide_eq_true hx2
    by_contra hcon
    have hrx : r ≤ x := by omega
    exact hfail ⟨le_trans hrx hxn,
      prefSumGood_mono _ hrx hgood⟩
  have hlb : r - 1 ≤ largest_good_index g := by
    refine le_foldr_max (List.mem_filter.mpr ⟨?_, ?_⟩)
    · have hrn : r ≤ g.order + 1 := by
        rcases Nat.lt_or_ge 1 r with h1 | h1
        · have := (hall (r - 1) (by omega) (by omega)).1
          omega
        · omega
      exact List.mem_range.mpr (by omega)
    · refine decide_eq_true ?_
      rcases Nat.lt_or_ge 1 r with h1 | h1
      · exact (hall (r - 1) (by omega) (by omega)).2
      · have : r = 1 := by omega
        rw [this]
        exact prefSumGood_zero _
  omega

end ClaimC6

section ClaimC10

namespace HH

/-- Descending sort of a list of naturals (the natural-number shadow of
`sortDesc`, which the source applies to Python integer lists). -/
def sortDescN (l : List ℕ) : List ℕ := l.insertionSort (· ≥ ·)

/-- Decrement the first `d` entries of a list of naturals: the shadow of
`decFirst` on sequences whose first `d` entries are positive. -/
def decFirstN (d : ℕ) (l : List ℕ) : List ℕ :=
  (l.take d).map (· - 1) ++ l.drop d

/-- The integer cast of a list of naturals. -/
def castList (l : List ℕ) : List ℤ := l.map fun d : ℕ => (d : ℤ)

theorem sortDescN_perm (l : List ℕ) : List.Perm (sortDescN l) l :=
  List.perm_insertionSort _ l

theorem sortDescN_sorted (l : List ℕ) : (sortDescN l).Sorted (· ≥ ·) :=
  List.sorted_insertionSort _ l

theorem sortDescN_length (l : List ℕ) : (sortDescN l).length = l.length :=
  (sortDescN_perm l).length_eq

/-- A sorted-descending permutation copy of `l` is `sortDescN l`. -/
theorem eq_sortDescN_of_perm {l t : List ℕ} (h : List.Perm t l)
    (hs : t.Sorted (· ≥ ·)) : t = sortDescN l :=
  List.eq_of_perm_of_sorted (h.trans (sortDescN_perm l).symm) hs
    (sortDescN_sorted l)

theorem sortDescN_eq_of_perm {l₁ l₂ : List ℕ} (h : List.Perm l₁ l₂) :
    sortDescN l₁ = sortDescN l₂ :=
  eq_sortDescN_of_perm ((sortDescN_perm l₁).trans h) (sortDescN_sorted l₁)

theorem decFirstN_length (d : ℕ) (l : List ℕ) :
    (decFirstN d l).length = l.length := by
  simp [decFirstN]
  omega

/-- The cast of a sorted-descending natural list is sorted descending
over the integers. -/
theorem castList_sorted {l : List ℕ} (h : l.Sorted (· ≥ ·)) :
    (castList l).Sorted (· ≥ ·) :=
  List.Pairwise.map _ (fun a b (hab : a ≥ b) => by exact_mod_cast hab) h

/-- Sorting the integer casts of naturals in decreasing order is the
cast of the decreasing natural sort. -/
theorem sortDesc_castList (l : List ℕ) :
    sortDesc (castList l) = castList (sortDescN l) := by
  have h1 : List.Perm (castList (sortDescN l)) (sortDesc (castList l)) :=
    ((sortDescN_perm l).map _).trans
      (List.perm_insertionSort _ (castList l)).symm
  have h2 : (castList (sortDescN l)).Sorted (· ≥ ·) :=
    castList_sorted (sortDescN_sorted l)
  have h3 : (sortDesc (castList l)).Sorted (· ≥ ·) :=
    List.sorted_insertionSort _ _
  exact (List.eq_of_perm_of_sorted h1 h2 h3).symm

/-- The degree sequence of a graph is the cast of the decreasing sort
of its natural-number degree list. -/
theorem degree_sequence_eq_cast {V : Type} [DecidableEq V] (g : FinGraph V) :
    INPGraph.degree_sequence g = castList (sortDescN g.degrees) :=
  sortDesc_castList g.degrees

/-- Provided its first `d` entries are positive, decrementing a natural
sequence commutes with casting it to the integers. -/
theorem decFirst_castList (d : ℕ) (l : List ℕ)
    (hpos : ∀ y ∈ l.take d, 1 ≤ y) :
    INPGraph.decFirst d (castList l) = castList (decFirstN d l) := by
  unfold INPGraph.decFirst decFirstN castList
  rw [List.map_append]
  congr 1
  · rw [← List.map_take, List.map_map, List.map_map]
    refine List.map_congr_left fun y hy => ?_
    have h1 := hpos y hy
    simp only [Function.comp]
    omega
  · rw [← List.map_drop]

/-- A list of naturals is graphical when it is the decreasing degree
sort of a well-formed finite graph. -/
def Graphical (s : List ℕ) : Prop :=
  ∃ g : FinGraph ℕ, g.WF ∧ sortDescN g.degrees = s

theorem Graphical.sorted {s : List ℕ} (h : Graphical s) :
    s.Sorted (· ≥ ·) := by
  obtain ⟨g, _, hs⟩ := h
  exact hs ▸ sortDescN_sorted g.degrees

end HH

end ClaimC10


namespace HH

/-- The multiset of undirected edges of a graph. -/
def edgeMS (g : FinGraph ℕ) : Multiset (Sym2 ℕ) :=
  (g.edges.map fun e => s(e.1, e.2) : List (Sym2 ℕ))

/-- A two-element unordered pair containing two distinct named vertices
is the pair of those vertices. -/
theorem sym2_eq_of_mem_mem {z : Sym2 ℕ} {u v : ℕ} (hu : u ∈ z) (hv : v ∈ z)
    (hne : u ≠ v) : z = s(u, v) := by
  induction z using Sym2.ind with
  | _ a b =>
    rw [Sym2.mem_iff] at hu hv
    rw [Sym2.eq_iff]
    rcases hu with rfl | rfl <;> rcases hv with rfl | rfl
    · exact absurd rfl hne
    · exact Or.inl ⟨rfl, rfl⟩
    · exact Or.inr ⟨rfl, rfl⟩
    · exact absurd rfl hne

/-- Splitting a count over a second predicate. -/
theorem countP_and_split {α : Type} (s : Multiset α) (p q : α → Prop)
    [DecidablePred p] [DecidablePred q] :
    Multiset.countP p s = Multiset.countP (fun a => p a ∧ q a) s +
      Multiset.countP (fun a => p a ∧ ¬ q a) s := by
  induction s using Multiset.induction with
  | empty => simp
  | cons a t ih =>
    by_cases hp : p a <;> by_cases hq : q a <;>
      simp [Multiset.countP_cons, hp, hq, ih] <;> omega

/-- The per-edge selector of `neighbors` yields `some u` only for an
edge whose unordered pair is `{v, u}`. -/
theorem neighbor_selector_sym2 {v u : ℕ} {e : ℕ × ℕ}
    (h : (if e.1 = v then some e.2 else
      if e.2 = v then some e.1 else none) = some u) :
    s(e.1, e.2) = s(v, u) := by
  by_cases h1 : e.1 = v
  · simp only [h1, if_pos rfl] at h
    rw [h1, Option.some_injective _ h]
  · by_cases h2 : e.2 = v
    · simp only [if_neg h1, h2, if_pos rfl] at h
      rw [h2, Option.some_injective _ h, Sym2.eq_swap]
    · simp [h1, h2] at h

/-- The degree of a vertex counts the edges containing it, over any
edge list. -/
theorem length_neighbors_countP (v : ℕ) : ∀ es : List (ℕ × ℕ),
    (es.filterMap fun e => if e.1 = v then some e.2 else
      if e.2 = v then some e.1 else none).length =
    es.countP fun e => decide (v ∈ s(e.1, e.2)) := by
  intro es
  induction es with
  | nil => rfl
  | cons e es ih =>
    obtain ⟨a, b⟩ := e
    rw [List.filterMap_cons, List.countP_cons]
    by_cases h1 : a = v
    · have hd : (decide (v ∈ s(a, b)) : Bool) = true := by
        simp [Sym2.mem_iff, h1]
      simp only [if_pos h1, hd, List.length_cons, ih]
      simp
    · by_cases h2 : b = v
      · have hd : (decide (v ∈ s(a, b)) : Bool) = true := by
          simp [Sym2.mem_iff, h2]
        simp only [if_neg h1, if_pos h2, hd, List.length_cons, ih]
        simp
      · have hd : (decide (v ∈ s(a, b)) : Bool) = false := by
          simp only [decide_eq_false_iff_not, Sym2.mem_iff]
          rintro (hc | hc)
          · exact h1 hc.symm
          · exact h2 hc.symm
        simp only [if_neg h1, if_neg h2, hd, ih]
        simp

/-- The degree of a vertex counts the edges containing it. -/
theorem degree_eq_countP (g : FinGraph ℕ) (v : ℕ) :
    g.degree v = Multiset.countP (fun z => v ∈ z) (edgeMS g) := by
  show (g.edges.filterMap _).length = _
  rw [edgeMS, Multiset.coe_countP, List.countP_map,
    length_neighbors_countP v g.edges]
  rfl

/-- Membership in the edge multiset characterises neighborhood. -/
theorem mem_neighbors_iff {g : FinGraph ℕ} (hwf : g.WF) {v u : ℕ} :
    u ∈ g.neighbors v ↔ s(v, u) ∈ edgeMS g := by
  constructor
  · intro h
    obtain ⟨e, he, hfe⟩ := List.mem_filterMap.mp h
    exact Multiset.mem_coe.mpr (List.mem_map.mpr
      ⟨e, he, neighbor_selector_sym2 hfe⟩)
  · intro h
    obtain ⟨e, he, hfe⟩ := List.mem_map.mp (Multiset.mem_coe.mp h)
    have hne := (hwf.2.1 e he).2.2
    rw [Sym2.eq_iff] at hfe
    refine List.mem_filterMap.mpr ⟨e, he, ?_⟩
    rcases hfe with ⟨h1, h2⟩ | ⟨h1, h2⟩
    · rw [if_pos h1, h2]
    · have hne1 : e.1 ≠ v := fun hc => hne (hc.trans h2.symm)
      rw [if_neg hne1, if_pos h2, h1]

/-- Neighborhood is symmetric. -/
theorem mem_neighbors_symm {g : FinGraph ℕ} (hwf : g.WF) {v u : ℕ}
    (h : u ∈ g.neighbors v) : v ∈ g.neighbors u := by
  rw [mem_neighbors_iff hwf] at h ⊢
  rwa [Sym2.eq_swap]

/-- No vertex of a well-formed graph neighbors itself. -/
theorem not_mem_neighbors_self {g : FinGraph ℕ} (hwf : g.WF) (v : ℕ) :
    v ∉ g.neighbors v := by
  intro h
  rw [mem_neighbors_iff hwf] at h
  obtain ⟨e, he, hfe⟩ := List.mem_map.mp (Multiset.mem_coe.mp h)
  have hne := (hwf.2.1 e he).2.2
  rw [Sym2.eq_iff] at hfe
  rcases hfe with ⟨h1, h2⟩ | ⟨h1, h2⟩ <;> exact hne (h1.trans h2.symm)

/-- Neighbors are vertices. -/
theorem mem_verts_of_mem_neighbors {g : FinGraph ℕ} (hwf : g.WF) {v u : ℕ}
    (h : u ∈ g.neighbors v) : u ∈ g.verts := by
  obtain ⟨e, he, hfe⟩ := List.mem_filterMap.mp h
  obtain ⟨he1, he2, _⟩ := hwf.2.1 e he
  by_cases h1 : e.1 = v
  · simp only [h1, if_pos rfl] at hfe
    exact (Option.some_injective _ hfe) ▸ he2
  · by_cases h2 : e.2 = v
    · simp only [if_neg h1, h2, if_pos rfl] at hfe
      exact (Option.some_injective _ hfe) ▸ he1
    · simp [h1, h2] at hfe

/-- A positive degree for every endpoint of an edge: a vertex with a
neighbor has degree at least one. -/
theorem degree_pos_of_mem_neighbors {g : FinGraph ℕ} (hwf : g.WF)
    {v u : ℕ} (h : u ∈ g.neighbors v) : 1 ≤ g.degree u := by
  have hv : v ∈ g.neighbors u := mem_neighbors_symm hwf h
  refine List.length_pos.mpr fun hc => ?_
  rw [hc] at hv
  exact List.not_mem_nil v hv

/-- Nodup of the neighbor selection over any edge list whose unordered
pairs are distinct. -/
theorem neighbors_nodup_aux (v : ℕ) : ∀ es : List (ℕ × ℕ),
    (es.map fun e => s(e.1, e.2)).Nodup →
    (es.filterMap fun e => if e.1 = v then some e.2 else
      if e.2 = v then some e.1 else none).Nodup := by
  intro es
  induction es with
  | nil => exact fun _ => List.nodup_nil
  | cons e es ih =>
    intro h
    rw [List.map_cons, List.nodup_cons] at h
    rw [List.filterMap_cons]
    rcases hcase : (if e.1 = v then some e.2 else
        if e.2 = v then some e.1 else none) with _ | u
    · exact ih h.2
    · rw [List.nodup_cons]
      refine ⟨fun hmem => ?_, ih h.2⟩
      obtain ⟨f, hf, hff⟩ := List.mem_filterMap.mp hmem
      have h1 := neighbor_selector_sym2 hcase
      have h2 := neighbor_selector_sym2 hff
      exact h.1 (List.mem_map.mpr ⟨f, hf, h2.trans h1.symm⟩)

/-- In a well-formed graph the neighbor list has no repetitions. -/
theorem neighbors_nodup {g : FinGraph ℕ} (hwf : g.WF) (v : ℕ) :
    (g.neighbors v).Nodup :=
  neighbors_nodup_aux v g.edges hwf.2.2

end HH

namespace HH

/-- The edge multiset of a well-formed graph has no repetitions. -/
theorem edgeMS_nodup {g : FinGraph ℕ} (hwf : g.WF) : (edgeMS g).Nodup := by
  rw [edgeMS, Multiset.coe_nodup]
  exact hwf.2.2

/-- Counting the edges that contain two fixed distinct vertices: one
when they are adjacent, zero otherwise. -/
theorem countP_both_mem {g : FinGraph ℕ} (hwf : g.WF) {u v : ℕ}
    (hne : u ≠ v) :
    Multiset.countP (fun z => u ∈ z ∧ v ∈ z) (edgeMS g) =
      if s(u, v) ∈ edgeMS g then 1 else 0 := by
  have hcongr : Multiset.countP (fun z => u ∈ z ∧ v ∈ z) (edgeMS g) =
      Multiset.countP (fun z => s(u, v) = z) (edgeMS g) := by
    refine Multiset.countP_congr rfl fun z _ => eq_iff_iff.mpr ⟨?_, ?_⟩
    · exact fun ⟨hu, hv⟩ => (sym2_eq_of_mem_mem hu hv hne).symm
    · rintro rfl
      exact ⟨Sym2.mem_mk_left u v, Sym2.mem_mk_right u v⟩
  rw [hcongr]
  show Multiset.count (s(u, v)) (edgeMS g) = _
  by_cases hmem : s(u, v) ∈ edgeMS g
  · rw [if_pos hmem, Multiset.count_eq_one_of_mem (edgeMS_nodup hwf) hmem]
  · rw [if_neg hmem, Multiset.count_eq_zero.mpr hmem]

/-- Filtering an edge list through a condition on its unordered pairs
commutes with forming the unordered pairs. -/
theorem map_filter_sym2 (p : Sym2 ℕ → Prop) [DecidablePred p] :
    ∀ es : List (ℕ × ℕ),
      ((es.filter fun e => decide (p s(e.1, e.2))).map
        fun e => s(e.1, e.2)) =
      (es.map fun e => s(e.1, e.2)).filter fun z => decide (p z) := by
  intro es
  induction es with
  | nil => rfl
  | cons e es ih =>
    by_cases hp : p s(e.1, e.2)
    · rw [List.filter_cons_of_pos (by simpa using hp), List.map_cons,
        List.map_cons, List.filter_cons_of_pos (by simpa using hp), ih]
    · rw [List.filter_cons_of_neg (by simpa using hp), List.map_cons,
        List.filter_cons_of_neg (by simpa using hp), ih]

/-- The vertex list after deleting one vertex from a graph with
distinct vertex labels. -/
theorem delete_verts {g : FinGraph ℕ} (hnd : g.verts.Nodup) (v : ℕ) :
    (INPGraph.delete_vertices g [v]).verts = g.verts.erase v := by
  show g.verts.filter _ = _
  rw [List.Nodup.erase_eq_filter hnd v]
  refine List.filter_congr fun x _ => ?_
  by_cases hx : x = v
  · simp [hx]
  · simp [hx]

/-- The edge multiset after deleting one vertex: the edges avoiding that
vertex. -/
theorem edgeMS_delete (g : FinGraph ℕ) (v : ℕ) :
    edgeMS (INPGraph.delete_vertices g [v]) =
      (edgeMS g).filter fun z => ¬ v ∈ z := by
  show ((g.edges.filter _).map fun e => s(e.1, e.2) : Multiset (Sym2 ℕ)) = _
  rw [edgeMS, Multiset.filter_coe, Multiset.coe_eq_coe]
  have hcg : (g.edges.filter fun e => decide (e.1 ∉ [v] ∧ e.2 ∉ [v])) =
      g.edges.filter fun e => decide (¬ v ∈ s(e.1, e.2)) := by
    refine List.filter_congr fun e _ => ?_
    simp only [decide_eq_decide, List.mem_singleton, Sym2.mem_iff]
    constructor
    · rintro ⟨h1, h2⟩ (hc | hc)
      · exact h1 hc.symm
      · exact h2 hc.symm
    · intro h
      exact ⟨fun hc => h (Or.inl hc.symm), fun hc => h (Or.inr hc.symm)⟩
  rw [hcg, map_filter_sym2 (fun z => ¬ v ∈ z) g.edges]

/-- Deleting vertices preserves well-formedness. -/
theorem WF_delete {g : FinGraph ℕ} (hwf : g.WF) (S : List ℕ) :
    (INPGraph.delete_vertices g S).WF := by
  refine ⟨hwf.1.filter _, fun e he => ?_, ?_⟩
  · have hmem := List.mem_of_mem_filter he
    have hkeep := List.of_mem_filter he
    rw [decide_eq_true_iff] at hkeep
    obtain ⟨h1, h2, h3⟩ := hwf.2.1 e hmem
    exact ⟨List.mem_filter.mpr ⟨h1, by simpa using hkeep.1⟩,
      List.mem_filter.mpr ⟨h2, by simpa using hkeep.2⟩, h3⟩
  · exact ((List.filter_sublist _).map _).nodup hwf.2.2

/-- The degree after deleting a different vertex drops by one exactly
when the two vertices are adjacent. -/
theorem degree_delete {g : FinGraph ℕ} (hwf : g.WF) {v u : ℕ}
    (hne : u ≠ v) :
    (INPGraph.delete_vertices g [v]).degree u +
      (if s(u, v) ∈ edgeMS g then 1 else 0) = g.degree u := by
  rw [degree_eq_countP, edgeMS_delete, Multiset.countP_filter,
    degree_eq_countP g u,
    countP_and_split (edgeMS g) (fun z => u ∈ z) (fun z => v ∈ z),
    countP_both_mem hwf hne]
  omega

end HH

namespace HH

/-- The two-edge switch used in the Havel-Hakimi argument: replace the
edges `{v, w}` and `{u, x}` by `{v, u}` and `{w, x}`. -/
def edgeSwap (g : FinGraph ℕ) (v w u x : ℕ) : FinGraph ℕ :=
  { verts := g.verts
    edges := (v, u) :: (w, x) :: g.edges.filter fun e =>
      decide (s(e.1, e.2) ≠ s(v, w) ∧ s(e.1, e.2) ≠ s(u, x)) }

/-- The edge multiset of the switch. -/
theorem edgeMS_swap (g : FinGraph ℕ) (v w u x : ℕ) :
    edgeMS (edgeSwap g v w u x) =
      s(v, u) ::ₘ s(w, x) ::ₘ
        (edgeMS g).filter fun z => z ≠ s(v, w) ∧ z ≠ s(u, x) := by
  show ((((v, u) :: (w, x) :: g.edges.filter _).map
    fun e => s(e.1, e.2) : List (Sym2 ℕ)) : Multiset (Sym2 ℕ)) = _
  rw [List.map_cons, List.map_cons,
    map_filter_sym2 (fun z => z ≠ s(v, w) ∧ z ≠ s(u, x)) g.edges]
  rw [edgeMS, Multiset.filter_coe]
  rfl

/-- Counting over a nodup multiset with two distinct members removed by
a filter. -/
theorem countP_remove_two {E : Multiset (Sym2 ℕ)} (hnd : E.Nodup)
    {e₁ e₂ : Sym2 ℕ} (h1 : e₁ ∈ E) (h2 : e₂ ∈ E) (hne : e₁ ≠ e₂)
    (p : Sym2 ℕ → Prop) [DecidablePred p] :
    Multiset.countP p E =
      Multiset.countP p (E.filter fun z => z ≠ e₁ ∧ z ≠ e₂) +
        ((if p e₁ then 1 else 0) + (if p e₂ then 1 else 0)) := by
  have h2e : e₂ ∈ E.erase e₁ := (Multiset.mem_erase_of_ne hne.symm).mpr h2
  set E' := (E.erase e₁).erase e₂ with hE'
  have hrec : E = e₁ ::ₘ e₂ ::ₘ E' := by
    rw [hE', Multiset.cons_erase h2e, Multiset.cons_erase h1]
  have hnd1 : (E.erase e₁).Nodup := hnd.erase e₁
  have hne1 : e₁ ∉ E' := fun hc =>
    hnd.not_mem_erase (Multiset.mem_of_mem_erase hc)
  have hne2 : e₂ ∉ E' := fun hc => hnd1.not_mem_erase hc
  have hfil : E.filter (fun z => z ≠ e₁ ∧ z ≠ e₂) = E' := by
    rw [hrec]
    rw [Multiset.filter_cons_of_neg _ (by simp),
      Multiset.filter_cons_of_neg _ (by simp [hne])]
    exact Multiset.filter_eq_self.mpr fun z hz =>
      ⟨fun hc => hne1 (hc ▸ hz), fun hc => hne2 (hc ▸ hz)⟩
  rw [hfil, hrec, Multiset.countP_cons, Multiset.countP_cons]
  omega

/-- The switch leaves every degree unchanged, provided the two removed
pairs are edges, the two added pairs are not, and the four endpoints
are pairwise distinct. -/
theorem degree_swap {g : FinGraph ℕ} (hwf : g.WF) {v w u x : ℕ}
    (hvw : s(v, w) ∈ edgeMS g) (hux : s(u, x) ∈ edgeMS g)
    (hd : [v, w, u, x].Nodup) (y : ℕ) :
    (edgeSwap g v w u x).degree y = g.degree y := by
  simp only [List.nodup_cons, List.mem_cons, List.mem_singleton,
    List.not_mem_nil] at hd
  have hpair : s(v, w) ≠ s(u, x) := by
    intro hc
    rw [Sym2.eq_iff] at hc
    tauto
  rw [degree_eq_countP, edgeMS_swap, Multiset.countP_cons,
    Multiset.countP_cons, degree_eq_countP g y,
    countP_remove_two (edgeMS_nodup hwf) hvw hux hpair (fun z => y ∈ z)]
  simp only [Sym2.mem_iff]
  split_ifs <;> omega

/-- The switch preserves well-formedness, under the same side
conditions, when the four vertices are vertices of the graph. -/
theorem WF_swap {g : FinGraph ℕ} (hwf : g.WF) {v w u x : ℕ}
    (hvu : s(v, u) ∉ edgeMS g) (hwx : s(w, x) ∉ edgeMS g)
    (hd : [v, w, u, x].Nodup)
    (hv : v ∈ g.verts) (hw : w ∈ g.verts) (hu : u ∈ g.verts)
    (hx : x ∈ g.verts) :
    (edgeSwap g v w u x).WF := by
  simp only [List.nodup_cons, List.mem_cons, List.mem_singleton,
    List.not_mem_nil] at hd
  refine ⟨hwf.1, ?_, ?_⟩
  · intro e he
    simp only [edgeSwap, List.mem_cons] at he
    rcases he with rfl | rfl | he
    · exact ⟨hv, hu, by simp; tauto⟩
    · exact ⟨hw, hx, by simp; tauto⟩
    · exact hwf.2.1 e (List.mem_of_mem_filter he)
  · show ((v, u) :: (w, x) :: _ : List (ℕ × ℕ)).map _ |>.Nodup
    rw [List.map_cons, List.map_cons, List.nodup_cons, List.nodup_cons]
    have hsub : ((g.edges.filter fun e =>
        decide (s(e.1, e.2) ≠ s(v, w) ∧ s(e.1, e.2) ≠ s(u, x))).map
          fun e => s(e.1, e.2) : List (Sym2 ℕ)).Sublist
        (g.edges.map fun e => s(e.1, e.2)) :=
      (List.filter_sublist _).map _
    refine ⟨?_, ?_, hsub.nodup hwf.2.2⟩
    · rw [List.mem_cons]
      rintro (hc | hc)
      · rw [Sym2.eq_iff] at hc
        tauto
      · exact hvu (Multiset.mem_coe.mpr (hsub.mem hc))
    · intro hc
      exact hwx (Multiset.mem_coe.mpr (hsub.mem hc))

end HH

namespace HH

/-- The second graph realizes the vertex list and degree function of the
first. -/
def RealizesAt (g0 g1 : FinGraph ℕ) : Prop :=
  g1.WF ∧ g1.verts = g0.verts ∧ ∀ u ∈ g0.verts, g1.degree u = g0.degree u

/-- Sum of the base-graph degrees of the neighbors of `v`: the quantity
the Havel-Hakimi switch argument maximises. -/
def nbrDegSum (g0 g1 : FinGraph ℕ) (v : ℕ) : ℕ :=
  ((g1.neighbors v).map g0.degree).sum

/-- The neighbors of `v` carry the `g0.degree v` largest degrees among
the other vertices. -/
def TopNbrs (g0 g1 : FinGraph ℕ) (v : ℕ) : Prop :=
  ((g1.neighbors v).map g0.degree : Multiset ℕ) =
    (((sortDescN ((g0.verts.erase v).map g0.degree)).take (g0.degree v) :
      List ℕ) : Multiset ℕ)

/-- When every element of `A` dominates every element of `B`, the first
`A.length` entries of the sorted merge are exactly `A`. -/
theorem take_of_dominant {A B tn : List ℕ} (hperm : List.Perm (A ++ B) tn)
    (hsorted : tn.Sorted (· ≥ ·)) (hdom : ∀ a ∈ A, ∀ b ∈ B, b ≤ a) :
    ((tn.take A.length : List ℕ) : Multiset ℕ) = (A : Multiset ℕ) := by
  have happ : (sortDescN A ++ sortDescN B).Sorted (· ≥ ·) := by
    rw [List.Sorted, List.pairwise_append]
    exact ⟨sortDescN_sorted A, sortDescN_sorted B, fun a ha b hb =>
      hdom a ((sortDescN_perm A).mem_iff.mp ha) b
        ((sortDescN_perm B).mem_iff.mp hb)⟩
  have hperm2 : List.Perm (sortDescN A ++ sortDescN B) tn :=
    (List.Perm.append (sortDescN_perm A) (sortDescN_perm B)).trans hperm
  have heq : sortDescN A ++ sortDescN B = tn :=
    List.eq_of_perm_of_sorted hperm2 happ hsorted
  have hlen : (sortDescN A).length = A.length := sortDescN_length A
  rw [← heq, ← hlen, List.take_left]
  exact Multiset.coe_eq_coe.mpr (sortDescN_perm A)

/-- The switch partner: when `v` is adjacent to `w` but not to the
higher-degree vertex `u`, some neighbor `x` of `u` avoids `w`, `v` and
`u` and is not adjacent to `w`. -/
theorem exists_swap_partner {g1 : FinGraph ℕ} (hwf1 : g1.WF) {v w u : ℕ}
    (hw : w ∈ g1.neighbors v) (hu : u ∉ g1.neighbors v) (huv : u ≠ v)
    (hdeg : g1.degree w < g1.degree u) :
    ∃ x, x ∈ g1.neighbors u ∧ x ∉ g1.neighbors w ∧ x ≠ v ∧ x ≠ w ∧
      x ≠ u := by
  classical
  have hvw : v ∈ g1.neighbors w := mem_neighbors_symm hwf1 hw
  have hcardNu : (g1.neighbors u).toFinset.card = g1.degree u :=
    List.toFinset_card_of_nodup (neighbors_nodup hwf1 u)
  have hcardNw : (g1.neighbors w).toFinset.card = g1.degree w :=
    List.toFinset_card_of_nodup (neighbors_nodup hwf1 w)
  set S : Finset ℕ := insert w ((g1.neighbors w).toFinset.erase v) with hS
  have hcardS : S.card ≤ g1.degree w := by
    have h1 : S.card ≤ ((g1.neighbors w).toFinset.erase v).card + 1 :=
      Finset.card_insert_le _ _
    have hvmem : v ∈ (g1.neighbors w).toFinset := List.mem_toFinset.mpr hvw
    have h2 : ((g1.neighbors w).toFinset.erase v).card =
        (g1.neighbors w).toFinset.card - 1 :=
      Finset.card_erase_of_mem hvmem
    have h3 : 1 ≤ (g1.neighbors w).toFinset.card := by
      refine Finset.card_pos.mpr ⟨v, hvmem⟩
    omega
  have hnonempty : ((g1.neighbors u).toFinset \ S).Nonempty := by
    refine Finset.card_pos.mp ?_
    have := Finset.le_card_sdiff S (g1.neighbors u).toFinset
    omega
  obtain ⟨x, hx⟩ := hnonempty
  rw [Finset.mem_sdiff] at hx
  obtain ⟨hxNu, hxS⟩ := hx
  rw [List.mem_toFinset] at hxNu
  rw [hS, Finset.mem_insert, not_or] at hxS
  obtain ⟨hxw, hxE⟩ := hxS
  have hxv : x ≠ v := by
    rintro rfl
    exact hu (mem_neighbors_symm hwf1 hxNu)
  have hxNw : x ∉ g1.neighbors w := by
    intro hc
    exact hxE (Finset.mem_erase.mpr ⟨hxv, List.mem_toFinset.mpr hc⟩)
  have hxu : x ≠ u := by
    rintro rfl
    exact not_mem_neighbors_self hwf1 _ hxNu
  exact ⟨x, hxNu, hxNw, hxv, hxw, hxu⟩

/-- The neighbor multiset of `v` after switching `{v, w}`, `{u, x}` to
`{v, u}`, `{w, x}`: the neighbor `w` is replaced by `u`. -/
theorem neighbors_swap_at {g1 : FinGraph ℕ} (hwf1 : g1.WF) {v w u x : ℕ}
    (hswapwf : (edgeSwap g1 v w u x).WF)
    (hu : u ∉ g1.neighbors v)
    (hd : [v, w, u, x].Nodup) :
    (((edgeSwap g1 v w u x).neighbors v : List ℕ) : Multiset ℕ) =
      u ::ₘ ((g1.neighbors v : List ℕ) : Multiset ℕ).erase w := by
  simp only [List.nodup_cons, List.mem_cons, List.mem_singleton,
    List.not_mem_nil] at hd
  have hndN : ((g1.neighbors v : List ℕ) : Multiset ℕ).Nodup := by
    rw [Multiset.coe_nodup]
    exact neighbors_nodup hwf1 v
  have hndL : (((edgeSwap g1 v w u x).neighbors v : List ℕ) :
      Multiset ℕ).Nodup := by
    rw [Multiset.coe_nodup]
    exact neighbors_nodup hswapwf v
  have hndR : (u ::ₘ ((g1.neighbors v : List ℕ) : Multiset ℕ).erase w).Nodup := by
    rw [Multiset.nodup_cons]
    exact ⟨fun hc => hu (Multiset.mem_coe.mp (Multiset.mem_of_mem_erase hc)),
      hndN.erase w⟩
  refine (Multiset.Nodup.ext hndL hndR).mpr fun a => ?_
  rw [Multiset.mem_cons, hndN.mem_erase_iff, Multiset.mem_coe,
    Multiset.mem_coe, mem_neighbors_iff hswapwf, mem_neighbors_iff hwf1,
    edgeMS_swap, Multiset.mem_cons, Multiset.mem_cons, Multiset.mem_filter]
  constructor
  · rintro (hc | hc | ⟨hmem, hne1, hne2⟩)
    · rw [Sym2.eq_iff] at hc
      rcases hc with ⟨_, rfl⟩ | ⟨h1, _⟩
      · exact Or.inl rfl
      · exact absurd h1 (by tauto)
    · rw [Sym2.eq_iff] at hc
      rcases hc with ⟨h1, _⟩ | ⟨h1, _⟩ <;> exact absurd h1 (by tauto)
    · right
      refine ⟨fun haw => ?_, hmem⟩
      exact hne1 (by rw [haw])
  · rintro (rfl | ⟨haw, hmem⟩)
    · exact Or.inl rfl
    · right; right
      refine ⟨hmem, ?_, ?_⟩
      · intro hc
        rw [Sym2.eq_iff] at hc
        rcases hc with ⟨_, h2⟩ | ⟨h1, _⟩
        · exact haw h2
        · exact absurd h1 (by tauto)
      · intro hc
        rw [Sym2.eq_iff] at hc
        rcases hc with ⟨h1, _⟩ | ⟨h1, _⟩ <;> exact absurd h1 (by tauto)

end HH

namespace HH

/-- Either the neighbors of `v` already carry the top degrees, or a
two-edge switch strictly increases the neighbor degree sum while
realizing the same degrees. -/
theorem swap_or_top {g0 g1 : FinGraph ℕ} (hwf0 : g0.WF)
    (hr : RealizesAt g0 g1) {v : ℕ} (hv : v ∈ g0.verts) :
    TopNbrs g0 g1 v ∨
      ∃ g2, RealizesAt g0 g2 ∧ nbrDegSum g0 g1 v < nbrDegSum g0 g2 v := by
  obtain ⟨hwf1, hverts, hdeg⟩ := hr
  have hNsub : ∀ a ∈ g1.neighbors v, a ∈ g0.verts.erase v := by
    intro a ha
    rw [List.Nodup.mem_erase_iff hwf0.1]
    refine ⟨fun hc => not_mem_neighbors_self hwf1 v (hc ▸ ha), ?_⟩
    rw [← hverts]
    exact mem_verts_of_mem_neighbors hwf1 ha
  by_cases hcase : ∃ u ∈ g0.verts.erase v, u ∉ g1.neighbors v ∧
      ∃ w ∈ g1.neighbors v, g0.degree w < g0.degree u
  · right
    obtain ⟨u, hu_er, huN, w, hwN, hdegwu⟩ := hcase
    obtain ⟨hu_ne, hu_mem⟩ := (List.Nodup.mem_erase_iff hwf0.1).mp hu_er
    obtain ⟨hw_ne, hw_mem⟩ := (List.Nodup.mem_erase_iff hwf0.1).mp
      (hNsub w hwN)
    have hdw : g1.degree w = g0.degree w := hdeg w hw_mem
    have hdu : g1.degree u = g0.degree u := hdeg u hu_mem
    obtain ⟨x, hxu, hxw, hxv, hxw2, hxu2⟩ :=
      exists_swap_partner hwf1 hwN huN hu_ne (by omega)
    have hvw_ne : v ≠ w := fun hc2 =>
      not_mem_neighbors_self hwf1 v (by rw [hc2] at hwN ⊢; exact hwN)
    have hwu_ne : w ≠ u := fun hc2 => huN (hc2 ▸ hwN)
    have hdist : [v, w, u, x].Nodup := by
      simp only [List.nodup_cons, List.mem_cons, List.mem_singleton,
        List.not_mem_nil, List.nodup_nil, or_false, not_or]
      exact ⟨⟨hvw_ne, fun hc2 => hu_ne hc2.symm, fun hc2 => hxv hc2.symm⟩,
        ⟨hwu_ne, fun hc2 => hxw2 hc2.symm⟩, fun hc2 => hxu2 hc2.symm,
        ⟨not_false, trivial⟩⟩
    have hvwE : s(v, w) ∈ edgeMS g1 := (mem_neighbors_iff hwf1).mp hwN
    have huxE : s(u, x) ∈ edgeMS g1 := (mem_neighbors_iff hwf1).mp hxu
    have hvuE : s(v, u) ∉ edgeMS g1 := fun hc2 =>
      huN ((mem_neighbors_iff hwf1).mpr hc2)
    have hwxE : s(w, x) ∉ edgeMS g1 := fun hc2 =>
      hxw ((mem_neighbors_iff hwf1).mpr hc2)
    have hswapwf : (edgeSwap g1 v w u x).WF :=
      WF_swap hwf1 hvuE hwxE hdist (hverts ▸ hv) (hverts ▸ hw_mem)
        (hverts ▸ hu_mem) (mem_verts_of_mem_neighbors hwf1 hxu)
    refine ⟨edgeSwap g1 v w u x,
      ⟨hswapwf, hverts, fun y hy =>
        (degree_swap hwf1 hvwE huxE hdist y).trans (hdeg y hy)⟩, ?_⟩
    have hnbr := neighbors_swap_at hwf1 hswapwf huN hdist
    show ((g1.neighbors v).map g0.degree).sum <
      (((edgeSwap g1 v w u x).neighbors v).map g0.degree).sum
    have hs2 : ((((edgeSwap g1 v w u x).neighbors v).map g0.degree :
        List ℕ) : Multiset ℕ).sum =
        (Multiset.map g0.degree
          (u ::ₘ ((g1.neighbors v : List ℕ) : Multiset ℕ).erase w)).sum := by
      rw [← hnbr]
      simp
    have hs1 : (((g1.neighbors v).map g0.degree : List ℕ) :
        Multiset ℕ).sum =
        (Multiset.map g0.degree
          (w ::ₘ ((g1.neighbors v : List ℕ) : Multiset ℕ).erase w)).sum := by
      rw [Multiset.cons_erase (Multiset.mem_coe.mpr hwN)]
      simp
    rw [← Multiset.sum_coe, ← Multiset.sum_coe
      ((((edgeSwap g1 v w u x).neighbors v).map g0.degree : List ℕ))]
    rw [hs1, hs2, Multiset.map_cons, Multiset.map_cons, Multiset.sum_cons,
      Multiset.sum_cons]
    omega
  · left
    push_neg at hcase
    obtain ⟨l', hl'perm, hl'sub⟩ :=
      List.Nodup.subperm (neighbors_nodup hwf1 v) hNsub
    obtain ⟨rest, hrest⟩ := hl'sub.exists_perm_append
    have hNperm : List.Perm (g1.neighbors v ++ rest) (g0.verts.erase v) :=
      (hl'perm.append_right rest).symm.trans hrest.symm
    have hndNR : (g1.neighbors v ++ rest).Nodup :=
      hNperm.symm.nodup (hwf0.1.erase v)
    have hrest_not : ∀ b ∈ rest, b ∉ g1.neighbors v := by
      intro b hb hbN
      rw [List.nodup_append] at hndNR
      exact hndNR.2.2 hbN hb
    have hdom : ∀ a ∈ (g1.neighbors v).map g0.degree,
        ∀ b ∈ rest.map g0.degree, b ≤ a := by
      intro a ha b hb
      obtain ⟨wa, hwa, rfl⟩ := List.mem_map.mp ha
      obtain ⟨ub, hub, rfl⟩ := List.mem_map.mp hb
      have hub_er : ub ∈ g0.verts.erase v :=
        hNperm.subset (List.mem_append_right _ hub)
      exact hcase ub hub_er (hrest_not ub hub) wa hwa
    have hperm : List.Perm
        ((g1.neighbors v).map g0.degree ++ rest.map g0.degree)
        (sortDescN ((g0.verts.erase v).map g0.degree)) := by
      rw [← List.map_append]
      exact (hNperm.map g0.degree).trans (sortDescN_perm _).symm
    have htake := take_of_dominant hperm
      (sortDescN_sorted ((g0.verts.erase v).map g0.degree)) hdom
    have hlen2 : (g1.neighbors v).length = g0.degree v := by
      rw [← hdeg v hv]
      rfl
    unfold TopNbrs
    rw [← htake, List.length_map, hlen2]

/-- The neighbor degree sum of any realization is bounded by the total
degree sum of the base graph. -/
theorem nbrDegSum_le_total {g0 g1 : FinGraph ℕ}
    (hr : RealizesAt g0 g1) (v : ℕ) :
    nbrDegSum g0 g1 v ≤ g0.degrees.sum := by
  obtain ⟨hwf1, hverts, _⟩ := hr
  have hle : ((g1.neighbors v : List ℕ) : Multiset ℕ) ≤
      ((g0.verts : List ℕ) : Multiset ℕ) := by
    rw [Multiset.le_iff_count]
    intro a
    by_cases ha : a ∈ g1.neighbors v
    · have h1 : Multiset.count a ((g1.neighbors v : List ℕ) :
          Multiset ℕ) ≤ 1 :=
        Multiset.nodup_iff_count_le_one.mp
          (by rw [Multiset.coe_nodup]; exact neighbors_nodup hwf1 v) a
      have h2 : 1 ≤ Multiset.count a ((g0.verts : List ℕ) : Multiset ℕ) := by
        rw [Multiset.one_le_count_iff_mem, Multiset.mem_coe, ← hverts]
        exact mem_verts_of_mem_neighbors hwf1 ha
      omega
    · have h0 : Multiset.count a ((g1.neighbors v : List ℕ) :
          Multiset ℕ) = 0 :=
        Multiset.count_eq_zero.mpr fun hc => ha (Multiset.mem_coe.mp hc)
      omega
  have hmaple : Multiset.map g0.degree ((g1.neighbors v : List ℕ) :
      Multiset ℕ) ≤ Multiset.map g0.degree ((g0.verts : List ℕ) :
      Multiset ℕ) := Multiset.map_le_map hle
  obtain ⟨extra, hextra⟩ := Multiset.le_iff_exists_add.mp hmaple
  have hsums := congrArg Multiset.sum hextra
  rw [Multiset.sum_add] at hsums
  show ((g1.neighbors v).map g0.degree).sum ≤ (g0.verts.map g0.degree).sum
  rw [← Multiset.sum_coe, ← Multiset.sum_coe (g0.verts.map g0.degree)]
  have hc1 : (((g1.neighbors v).map g0.degree : List ℕ) : Multiset ℕ) =
      Multiset.map g0.degree ((g1.neighbors v : List ℕ) : Multiset ℕ) := by
    simp
  have hc2 : ((g0.verts.map g0.degree : List ℕ) : Multiset ℕ) =
      Multiset.map g0.degree ((g0.verts : List ℕ) : Multiset ℕ) := by
    simp
  rw [hc1, hc2]
  omega

/-- Some realization of the degrees of `g0` gives `v` the top-degree
neighborhood: repeated switches only increase the bounded neighbor
degree sum. -/
theorem exists_top_realization {g0 : FinGraph ℕ} (hwf0 : g0.WF) {v : ℕ}
    (hv : v ∈ g0.verts) :
    ∃ g2, RealizesAt g0 g2 ∧ TopNbrs g0 g2 v := by
  suffices h : ∀ k : ℕ, ∀ g1, RealizesAt g0 g1 →
      g0.degrees.sum ≤ nbrDegSum g0 g1 v + k →
      ∃ g2, RealizesAt g0 g2 ∧ TopNbrs g0 g2 v by
    exact h g0.degrees.sum g0 ⟨hwf0, rfl, fun u _ => rfl⟩
      (Nat.le_add_left _ _)
  intro k
  induction k with
  | zero =>
    intro g1 hr hb
    rcases swap_or_top hwf0 hr hv with ht | ⟨g2, hr2, hlt⟩
    · exact ⟨g1, hr, ht⟩
    · have := nbrDegSum_le_total hr2 v
      omega
  | succ k ih =>
    intro g1 hr hb
    rcases swap_or_top hwf0 hr hv with ht | ⟨g2, hr2, hlt⟩
    · exact ⟨g1, hr, ht⟩
    · exact ih g2 hr2 (by omega)

end HH

namespace HH

/-- A nodup list included in another list is, as a multiset, below it. -/
theorem coe_le_of_nodup_subset {l1 l2 : List ℕ} (h1 : l1.Nodup)
    (hsub : ∀ a ∈ l1, a ∈ l2) :
    (l1 : Multiset ℕ) ≤ (l2 : Multiset ℕ) := by
  rw [Multiset.le_iff_count]
  intro a
  by_cases ha : a ∈ l1
  · have hc1 : Multiset.count a (l1 : Multiset ℕ) ≤ 1 :=
      Multiset.nodup_iff_count_le_one.mp (Multiset.coe_nodup.mpr h1) a
    have hc2 : 1 ≤ Multiset.count a (l2 : Multiset ℕ) := by
      rw [Multiset.one_le_count_iff_mem, Multiset.mem_coe]
      exact hsub a ha
    omega
  · have hc0 : Multiset.count a (l1 : Multiset ℕ) = 0 :=
      Multiset.count_eq_zero.mpr fun hc => ha (Multiset.mem_coe.mp hc)
    omega

/-- Only the empty degree list or the zero list is graphical on one
vertex. -/
theorem graphical_singleton {k : ℕ} (h : Graphical [k]) : k = 0 := by
  obtain ⟨g, hwf, hs⟩ := h
  have hperm : List.Perm g.degrees [k] :=
    (sortDescN_perm g.degrees).symm.trans (by rw [hs])
  have hlen : g.verts.length = 1 := by
    have hl := hperm.length_eq
    simpa [FinGraph.degrees] using hl
  obtain ⟨v, hverts⟩ := List.length_eq_one.mp hlen
  have hedges : g.edges = [] := by
    rcases hE : g.edges with _ | ⟨e, es⟩
    · rfl
    · exfalso
      have hmem := hwf.2.1 e (by rw [hE]; exact List.mem_cons_self _ _)
      rw [hverts] at hmem
      rcases hmem with ⟨h1, h2, h3⟩
      rw [List.mem_singleton] at h1 h2
      exact h3 (h1.trans h2.symm)
  have hdeg0 : g.degree v = 0 := by
    show (g.edges.filterMap _).length = 0
    rw [hedges]
    rfl
  have hdegs : g.degrees = [0] := by
    rw [FinGraph.degrees, hverts, List.map_singleton, hdeg0]
  rw [hdegs] at hperm
  have hk := hperm.mem_iff.mpr (List.mem_singleton_self k)
  rw [List.mem_singleton] at hk
  exact hk

/-- The Havel-Hakimi step: a sorted graphical sequence with positive
head `dn` stays graphical after dropping the head, decrementing the next
`dn` entries and re-sorting; moreover the decremented entries were all
positive. -/
theorem graphical_step {dn : ℕ} {tn : List ℕ}
    (h : Graphical (dn :: tn)) :
    Graphical (sortDescN (decFirstN dn tn)) ∧ ∀ y ∈ tn.take dn, 1 ≤ y := by
  obtain ⟨g0, hwf0, hsort⟩ := h
  have hsorted : (dn :: tn).Sorted (· ≥ ·) := hsort ▸ sortDescN_sorted _
  have hdn_mem : dn ∈ g0.degrees := by
    have hm : dn ∈ sortDescN g0.degrees := by
      rw [hsort]
      exact List.mem_cons_self _ _
    exact (sortDescN_perm g0.degrees).subset hm
  obtain ⟨v, hv, hdv⟩ := List.mem_map.mp hdn_mem
  have hperm1 : List.Perm g0.degrees
      (g0.degree v :: (g0.verts.erase v).map g0.degree) := by
    have hp := (List.perm_cons_erase hv).map g0.degree
    simpa [FinGraph.degrees] using hp
  have hperm2 : List.Perm (dn :: tn)
      (dn :: (g0.verts.erase v).map g0.degree) := by
    have hb : List.Perm (dn :: tn) g0.degrees := by
      rw [← hsort]
      exact sortDescN_perm _
    have hc := hb.trans hperm1
    rwa [hdv] at hc
  have htn_perm : List.Perm tn ((g0.verts.erase v).map g0.degree) :=
    hperm2.cons_inv
  have htn : tn = sortDescN ((g0.verts.erase v).map g0.degree) :=
    eq_sortDescN_of_perm htn_perm hsorted.of_cons
  obtain ⟨g1, hr1, htop⟩ := exists_top_realization hwf0 hv
  obtain ⟨hwf1, hverts, hdeg⟩ := hr1
  have htake_eq : (((g1.neighbors v).map g0.degree : List ℕ) :
      Multiset ℕ) = ((tn.take dn : List ℕ) : Multiset ℕ) := by
    rw [htop, ← htn, hdv]
  have hpos : ∀ y ∈ tn.take dn, 1 ≤ y := by
    intro y hy
    have hym : y ∈ (g1.neighbors v).map g0.degree := by
      have hy2 : (y : ℕ) ∈ (((g1.neighbors v).map g0.degree : List ℕ) :
          Multiset ℕ) := by
        rw [htake_eq]
        exact Multiset.mem_coe.mpr hy
      exact Multiset.mem_coe.mp hy2
    obtain ⟨a, haN, rfl⟩ := List.mem_map.mp hym
    have h1 : 1 ≤ g1.degree a := degree_pos_of_mem_neighbors hwf1 haN
    have h2 : g1.degree a = g0.degree a := hdeg a (by
      rw [← hverts]
      exact mem_verts_of_mem_neighbors hwf1 haN)
    omega
  refine ⟨⟨INPGraph.delete_vertices g1 [v], WF_delete hwf1 [v], ?_⟩, hpos⟩
  refine sortDescN_eq_of_perm (Multiset.coe_eq_coe.mp ?_)
  have hdv2 : (INPGraph.delete_vertices g1 [v]).verts = g0.verts.erase v := by
    rw [delete_verts hwf1.1 v, hverts]
  have hdegs_list : (INPGraph.delete_vertices g1 [v]).degrees =
      (g0.verts.erase v).map (INPGraph.delete_vertices g1 [v]).degree := by
    rw [FinGraph.degrees, hdv2]
  rw [hdegs_list]
  set dg := (INPGraph.delete_vertices g1 [v]).degree with hdg
  set N : Multiset ℕ := ((g1.neighbors v : List ℕ) : Multiset ℕ) with hN
  have hNsub : ∀ a ∈ g1.neighbors v, a ∈ g0.verts.erase v := by
    intro a ha
    rw [List.Nodup.mem_erase_iff hwf0.1]
    refine ⟨fun hc => not_mem_neighbors_self hwf1 v (hc ▸ ha), ?_⟩
    rw [← hverts]
    exact mem_verts_of_mem_neighbors hwf1 ha
  have hNle : N ≤ ((g0.verts.erase v : List ℕ) : Multiset ℕ) :=
    coe_le_of_nodup_subset (neighbors_nodup hwf1 v) hNsub
  set R : Multiset ℕ := ((g0.verts.erase v : List ℕ) : Multiset ℕ) - N
    with hR
  have hNR : N + R = ((g0.verts.erase v : List ℕ) : Multiset ℕ) := by
    rw [hR, add_comm]
    exact tsub_add_cancel_of_le hNle
  have hmemR : ∀ a ∈ R, a ∈ g0.verts.erase v ∧ a ∉ g1.neighbors v := by
    intro a ha
    have haE : a ∈ g0.verts.erase v := by
      have : a ∈ ((g0.verts.erase v : List ℕ) : Multiset ℕ) :=
        Multiset.mem_of_le (hR ▸ tsub_le_self) ha
      exact Multiset.mem_coe.mp this
    refine ⟨haE, fun haN => ?_⟩
    have hnder : ((g0.verts.erase v : List ℕ) : Multiset ℕ).Nodup :=
      Multiset.coe_nodup.mpr (hwf0.1.erase v)
    have hc1 : Multiset.count a ((g0.verts.erase v : List ℕ) :
        Multiset ℕ) ≤ 1 := Multiset.nodup_iff_count_le_one.mp hnder a
    have hc2 : 1 ≤ Multiset.count a N := by
      rw [hN, Multiset.one_le_count_iff_mem, Multiset.mem_coe]
      exact haN
    have hc3 : 1 ≤ Multiset.count a R := by
      rw [Multiset.one_le_count_iff_mem]
      exact ha
    have hc4 := congrArg (Multiset.count a) hNR
    rw [Multiset.count_add] at hc4
    omega
  have hmapN : Multiset.map dg N = Multiset.map (· - 1)
      (Multiset.map g0.degree N) := by
    rw [Multiset.map_map]
    refine Multiset.map_congr rfl fun a ha => ?_
    have haN : a ∈ g1.neighbors v := Multiset.mem_coe.mp ha
    have hane : a ≠ v := fun hc => not_mem_neighbors_self hwf1 v (hc ▸ haN)
    have hadj : s(a, v) ∈ edgeMS g1 := by
      rw [Sym2.eq_swap]
      exact (mem_neighbors_iff hwf1).mp haN
    have hdel := degree_delete hwf1 hane
    rw [if_pos hadj, ← hdg] at hdel
    have hd1 : g1.degree a = g0.degree a := hdeg a (by
      rw [← hverts]
      exact mem_verts_of_mem_neighbors hwf1 haN)
    simp only [Function.comp]
    omega
  have hmapR : Multiset.map dg R = Multiset.map g0.degree R := by
    refine Multiset.map_congr rfl fun a ha => ?_
    obtain ⟨haE, haN⟩ := hmemR a ha
    have hane : a ≠ v := ((List.Nodup.mem_erase_iff hwf0.1).mp haE).1
    have hnadj : s(a, v) ∉ edgeMS g1 := fun hc => haN
      ((mem_neighbors_iff hwf1).mpr (Sym2.eq_swap ▸ hc))
    have hdel := degree_delete hwf1 hane
    rw [if_neg hnadj, ← hdg] at hdel
    have hd1 : g1.degree a = g0.degree a := hdeg a (by
      have := ((List.Nodup.mem_erase_iff hwf0.1).mp haE).2
      exact this)
    omega
  have hmapdeg0 : Multiset.map g0.degree N + Multiset.map g0.degree R =
      ((tn : List ℕ) : Multiset ℕ) := by
    rw [← Multiset.map_add, hNR]
    have h1 : Multiset.map g0.degree (((g0.verts.erase v) : List ℕ) :
        Multiset ℕ) = (((g0.verts.erase v).map g0.degree : List ℕ) :
        Multiset ℕ) := by simp
    rw [h1]
    exact (Multiset.coe_eq_coe.mpr htn_perm).symm
  have htn_split : ((tn : List ℕ) : Multiset ℕ) =
      ((tn.take dn : List ℕ) : Multiset ℕ) +
        ((tn.drop dn : List ℕ) : Multiset ℕ) := by
    rw [Multiset.coe_add]
    exact congrArg _ (List.take_append_drop dn tn).symm
  have hmapR_drop : Multiset.map g0.degree R =
      ((tn.drop dn : List ℕ) : Multiset ℕ) := by
    have hNtake : Multiset.map g0.degree N =
        ((tn.take dn : List ℕ) : Multiset ℕ) := by
      rw [hN]
      have hcomm : Multiset.map g0.degree ((g1.neighbors v : List ℕ) :
          Multiset ℕ) = (((g1.neighbors v).map g0.degree : List ℕ) :
          Multiset ℕ) := by simp
      rw [hcomm, htake_eq]
    have := hmapdeg0
    rw [hNtake, htn_split] at this
    exact add_left_cancel this
  have hNtake2 : Multiset.map g0.degree N =
      ((tn.take dn : List ℕ) : Multiset ℕ) := by
    rw [hN]
    have hcomm : Multiset.map g0.degree ((g1.neighbors v : List ℕ) :
        Multiset ℕ) = (((g1.neighbors v).map g0.degree : List ℕ) :
        Multiset ℕ) := by simp
    rw [hcomm, htake_eq]
  calc (((g0.verts.erase v).map dg : List ℕ) : Multiset ℕ)
      = Multiset.map dg (((g0.verts.erase v) : List ℕ) : Multiset ℕ) := by
        simp
    _ = Multiset.map dg N + Multiset.map dg R := by
        rw [← hNR, Multiset.map_add]
    _ = Multiset.map (· - 1) ((tn.take dn : List ℕ) : Multiset ℕ) +
        ((tn.drop dn : List ℕ) : Multiset ℕ) := by
        rw [hmapN, hmapR, hNtake2, hmapR_drop]
    _ = (((tn.take dn).map (· - 1) : List ℕ) : Multiset ℕ) +
        ((tn.drop dn : List ℕ) : Multiset ℕ) := by
        simp
    _ = ((decFirstN dn tn : List ℕ) : Multiset ℕ) := by
        rw [Multiset.coe_add]
        rfl

end HH

namespace HH

/-- Relabel the vertices of a graph along a function. -/
def mapGraph {V : Type} (f : V → ℕ) (g : FinGraph V) : FinGraph ℕ :=
  { verts := g.verts.map f
    edges := g.edges.map fun e => (f e.1, f e.2) }

/-- Relabelling along a function that is injective on the vertices maps
neighbor lists to neighbor lists. -/
theorem mapGraph_neighbors {V : Type} [DecidableEq V] (f : V → ℕ)
    (g : FinGraph V) (hwf : g.WF)
    (hinj : ∀ a ∈ g.verts, ∀ b ∈ g.verts, f a = f b → a = b)
    {v : V} (hv : v ∈ g.verts) :
    (mapGraph f g).neighbors (f v) = (g.neighbors v).map f := by
  show (g.edges.map _).filterMap _ = (g.edges.filterMap _).map f
  rw [List.filterMap_map, List.map_filterMap]
  refine List.filterMap_congr fun e he => ?_
  obtain ⟨he1, he2, _⟩ := hwf.2.1 e he
  by_cases h1 : e.1 = v
  · have hf1 : f e.1 = f v := by rw [h1]
    simp [Function.comp, h1, hf1]
  · have hne1 : f e.1 ≠ f v := fun hc => h1 (hinj _ he1 _ hv hc)
    by_cases h2 : e.2 = v
    · have hf2 : f e.2 = f v := by rw [h2]
      simp [Function.comp, h1, h2, hne1, hf2]
    · have hne2 : f e.2 ≠ f v := fun hc => h2 (hinj _ he2 _ hv hc)
      simp [Function.comp, h1, h2, hne1, hne2]

/-- Relabelling along a vertex-injective function preserves the degree
list. -/
theorem mapGraph_degrees {V : Type} [DecidableEq V] (f : V → ℕ)
    (g : FinGraph V) (hwf : g.WF)
    (hinj : ∀ a ∈ g.verts, ∀ b ∈ g.verts, f a = f b → a = b) :
    (mapGraph f g).degrees = g.degrees := by
  show (g.verts.map f).map (mapGraph f g).degree = g.verts.map g.degree
  rw [List.map_map]
  refine List.map_congr_left fun v hv => ?_
  show (mapGraph f g).degree (f v) = g.degree v
  unfold FinGraph.degree
  rw [mapGraph_neighbors f g hwf hinj hv, List.length_map]

/-- Relabelling along a vertex-injective function preserves
well-formedness. -/
theorem mapGraph_WF {V : Type} [DecidableEq V] (f : V → ℕ)
    (g : FinGraph V) (hwf : g.WF)
    (hinj : ∀ a ∈ g.verts, ∀ b ∈ g.verts, f a = f b → a = b) :
    (mapGraph f g).WF := by
  refine ⟨(List.nodup_map_iff_inj_on hwf.1).mpr hinj, ?_, ?_⟩
  · intro e he
    obtain ⟨e0, he0, rfl⟩ := List.mem_map.mp he
    obtain ⟨h1, h2, h3⟩ := hwf.2.1 e0 he0
    exact ⟨List.mem_map_of_mem f h1, List.mem_map_of_mem f h2,
      fun hc => h3 (hinj _ h1 _ h2 hc)⟩
  · have hmm : ((g.edges.map fun e => (f e.1, f e.2)).map
        fun e => s(e.1, e.2)) =
        (g.edges.map fun e => s(e.1, e.2)).map (Sym2.map f) := by
      rw [List.map_map, List.map_map]
      refine List.map_congr_left fun e _ => ?_
      obtain ⟨a, b⟩ := e
      simp [Function.comp, Sym2.map_pair_eq]
    show ((g.edges.map fun e => (f e.1, f e.2)).map
      fun e => s(e.1, e.2)).Nodup
    rw [hmm]
    refine (List.nodup_map_iff_inj_on hwf.2.2).mpr ?_
    intro z1 hz1 z2 hz2 hmap
    obtain ⟨e1, he1, rfl⟩ := List.mem_map.mp hz1
    obtain ⟨e2, he2, rfl⟩ := List.mem_map.mp hz2
    obtain ⟨ha1, hb1, _⟩ := hwf.2.1 e1 he1
    obtain ⟨ha2, hb2, _⟩ := hwf.2.1 e2 he2
    rw [Sym2.map_pair_eq, Sym2.map_pair_eq, Sym2.eq_iff] at hmap
    rw [Sym2.eq_iff]
    rcases hmap with ⟨hx, hy⟩ | ⟨hx, hy⟩
    · exact Or.inl ⟨hinj _ ha1 _ ha2 hx, hinj _ hb1 _ hb2 hy⟩
    · exact Or.inr ⟨hinj _ ha1 _ hb2 hx, hinj _ hb1 _ ha2 hy⟩

/-- The sorted degree list of any well-formed graph, over any vertex
type, is graphical: relabel the vertices with their index in the vertex
list. -/
theorem graphical_of_WF {V : Type} [DecidableEq V] (g : FinGraph V)
    (hwf : g.WF) : Graphical (sortDescN g.degrees) := by
  have hinj : ∀ a ∈ g.verts, ∀ b ∈ g.verts,
      (fun v => List.indexOf v g.verts) a =
        (fun v => List.indexOf v g.verts) b → a = b := by
    intro a ha b hb hab
    exact (List.indexOf_inj ha hb).mp hab
  exact ⟨mapGraph (fun v => List.indexOf v g.verts) g,
    mapGraph_WF _ g hwf hinj,
    by rw [mapGraph_degrees _ g hwf hinj]⟩

end HH

namespace HH

theorem castList_cons (d : ℕ) (l : List ℕ) :
    castList (d :: l) = (d : ℤ) :: castList l := rfl

theorem castList_length (l : List ℕ) : (castList l).length = l.length :=
  List.length_map l _

/-- On a graphical sequence, the residue loop runs to completion with
the budget used by `residue` and stops on a sequence whose head is
exactly zero. -/
theorem residue_loop_graphical : ∀ n : ℕ, ∀ sn : List ℕ, sn.length = n →
    Graphical sn → sn ≠ [] →
    ∃ r : List ℤ, INPGraph.residue_loop n (castList sn) = .ok r ∧
      r.head? = some 0 := by
  intro n
  induction n with
  | zero =>
    intro sn hlen hg hne
    exact absurd (List.length_eq_zero.mp hlen) hne
  | succ k ih =>
    intro sn hlen hg hne
    obtain ⟨dn, tn, rfl⟩ := List.exists_cons_of_ne_nil hne
    rw [castList_cons]
    by_cases hd : 0 < dn
    · obtain ⟨hg', hpos⟩ := graphical_step hg
      have htn_ne : tn ≠ [] := by
        rintro rfl
        have := graphical_singleton hg
        omega
      have hred : INPGraph.residue_loop (k + 1) ((dn : ℤ) :: castList tn) =
          INPGraph.residue_loop k
            (sortDesc (INPGraph.decFirst (dn : ℤ).toNat (castList tn))) := by
        show (if 0 < (dn : ℤ) then _ else _) = _
        rw [if_pos (by exact_mod_cast hd)]
      have htoNat : ((dn : ℤ)).toNat = dn := Int.toNat_natCast dn
      rw [hred, htoNat, decFirst_castList dn tn hpos, sortDesc_castList]
      have hlentn : tn.length = k := by
        have hl := hlen
        rw [List.length_cons] at hl
        omega
      have hlen2 : (sortDescN (decFirstN dn tn)).length = k := by
        rw [sortDescN_length, decFirstN_length]
        exact hlentn
      have hne2 : sortDescN (decFirstN dn tn) ≠ [] := by
        intro hc
        have hl0 := congrArg List.length hc
        rw [hlen2, List.length_nil] at hl0
        rcases tn with _ | ⟨a, tl⟩
        · exact htn_ne rfl
        · rw [List.length_cons] at hlentn
          omega
      exact ih _ hlen2 hg' hne2
    · have hd0 : dn = 0 := by omega
      refine ⟨(dn : ℤ) :: castList tn, ?_, by rw [hd0]; simp⟩
      show (if 0 < ((dn : ℤ)) then _ else _) = _
      rw [if_neg (by exact_mod_cast hd)]

end HH

section ClaimC10Main

/-- C10: for every well-formed graph with at least one vertex, the
`residue` computation runs the Havel-Hakimi reduction of the decreasing
degree sequence to completion: no list access ever fails, the loop stops
at a sequence whose head entry is exactly 0, and `residue` returns the
length of that remaining sequence. -/
theorem C10_residue_reduction {V : Type} [DecidableEq V] (g : FinGraph V)
    (hwf : g.WF) (h1 : 1 ≤ g.order) :
    ∃ r : List ℤ,
      INPGraph.residue_loop (INPGraph.degree_sequence g).length
        (INPGraph.degree_sequence g) = .ok r ∧
      r ≠ [] ∧ r.head? = some 0 ∧ INPGraph.residue g = .ok r.length := by
  have hcast := HH.degree_sequence_eq_cast g
  have hlen : (HH.sortDescN g.degrees).length = g.order := by
    rw [HH.sortDescN_length]
    simp [FinGraph.degrees, FinGraph.order]
  have hne : HH.sortDescN g.degrees ≠ [] := by
    intro hc
    rw [hc, List.length_nil] at hlen
    omega
  obtain ⟨r, hr, hhead⟩ := HH.residue_loop_graphical
    (HH.sortDescN g.degrees).length (HH.sortDescN g.degrees) rfl
    (HH.graphical_of_WF g hwf) hne
  have hlen2 : (INPGraph.degree_sequence g).length =
      (HH.sortDescN g.degrees).length := by
    rw [hcast, HH.castList_length]
  refine ⟨r, ?_, ?_, hhead, ?_⟩
  · rw [hlen2, hcast]
    exact hr
  · intro hc
    rw [hc] at hhead
    exact Option.noConfusion hhead
  · show (INPGraph.residue_loop (INPGraph.degree_sequence g).length
      (INPGraph.degree_sequence g)).map List.length = _
    rw [hlen2, hcast, hr]
    rfl

/-- Witness for C10 on the complete graph on three vertices: the degree
sequence [2, 2, 2] reduces to [1, 1] and then to [0], so `residue`
returns 1 and the reduction stops with head 0. -/
theorem C10_residue_reduction_witness :
    INPGraph.residue K3 = .ok 1 ∧
    ∃ r : List ℤ,
      INPGraph.residue_loop (INPGraph.degree_sequence K3).length
        (INPGraph.degree_sequence K3) = .ok r ∧ r.head? = some 0 := by
  obtain ⟨r, hloop, hne, hhead, hres⟩ :=
    C10_residue_reduction K3 ⟨by decide, by decide, by decide⟩ (by decide)
  exact ⟨by rfl, r, hloop, hhead⟩

end ClaimC10Main
